import Mathlib

/-!
Verification of the routing-engine core of the arrows game
(`arrows_cli.py`, class `ArrowGame`).

The Python class is shallowly embedded: the grid of landmark lists, the
per-cell direction queues (`self._directions`) and the arrow budget
(`self._remaining_arrows`) become explicit values; every mutating method
becomes a state-passing function translated line by line from the source.
Python list indexing `xs[i]` at a nonnegative index is modelled with
`List.getD`, in-place update with `List.set`; all positions that the real
program ever passes to these methods are within bounds, and the theorems
about editing carry that hypothesis.
-/

namespace Arrows

/-- The four arrow directions `ArrowGame.UP/LEFT/DOWN/RIGHT`. -/
inductive Orientation where
  | up
  | left
  | down
  | right
deriving DecidableEq, Repr

/-- The landmark tags `ArrowGame.GOAL/START/BOULDER`. -/
inductive Landmark where
  | goal
  | start
  | boulder
deriving DecidableEq, Repr

/-- One cell's landmark list (`landmarks[row][col]` is a Python list of tags). -/
abbrev Cell := List Landmark

/-- The landmark grid (`self._landmarks`). -/
abbrev LGrid := List (List Cell)

/-- One cell's direction queue (an element of `self._directions`). -/
abbrev Queue := List Orientation

/-- The full route table `self._directions`. -/
abbrev Directions := List (List Queue)

/-- A `[row, col]` position; Python uses unbounded ints. -/
abbrev Position := Int × Int

/-- `self._rows = len(landmarks)`. -/
def rowsOf (lm : LGrid) : Nat := lm.length

/-- `self._cols = len(landmarks[0])`. -/
def colsOf (lm : LGrid) : Nat := (lm.headD []).length

/-- `ArrowGame._opposite_orientation`. -/
def oppositeOrientation : Orientation → Orientation
  | .up => .down
  | .left => .right
  | .down => .up
  | .right => .left

/-- `ArrowGame._cell_at_orientation`: the cell one space away. -/
def cellAtOrientation (p : Position) : Orientation → Position
  | .up => (p.1 - 1, p.2)
  | .left => (p.1, p.2 - 1)
  | .down => (p.1 + 1, p.2)
  | .right => (p.1, p.2 + 1)

/-- `ArrowGame._position_is_valid`. -/
def positionIsValid (lm : LGrid) (p : Position) : Bool :=
  decide (0 ≤ p.1 ∧ p.1 < (rowsOf lm : Int) ∧ 0 ≤ p.2 ∧ p.2 < (colsOf lm : Int))

/-- `self._landmarks[row][col]` (positions handed to the engine are in
bounds, where `Int.toNat` agrees with Python indexing). -/
def getCell (lm : LGrid) (p : Position) : Cell :=
  (lm.getD p.1.toNat []).getD p.2.toNat []

/-- `self._directions[row][col]`. -/
def getQ (d : Directions) (p : Position) : Queue :=
  (d.getD p.1.toNat []).getD p.2.toNat []

/-- Write back one cell's queue (the in-place Python list mutations). -/
def setQ (d : Directions) (p : Position) (q : Queue) : Directions :=
  d.set p.1.toNat ((d.getD p.1.toNat []).set p.2.toNat q)

/-- Whether the tag `x` is in the cell's landmark list (Python `x in landmark`). -/
def cellHas (lm : LGrid) (p : Position) (x : Landmark) : Bool :=
  decide (x ∈ getCell lm p)

/-- The swap `direction[0], direction[1] = direction[1], direction[0]`
performed on a two-element queue. -/
def swap2 : Queue → Queue
  | [a, b] => [b, a]
  | q => q

/-- `ArrowGame._advance`, acting on an explicit `(position, directions)`
pair; returns the `moved` flag together with the updated pair. -/
def advance (lm : LGrid) (p : Position) (d : Directions) : Bool × Position × Directions :=
  match getQ d p with
  | [] => (false, p, d)
  | o :: rest =>
    let np := cellAtOrientation p o
    if positionIsValid lm np then
      if (o :: rest).length = 2 then (true, np, setQ d p (swap2 (o :: rest)))
      else (true, np, d)
    else (false, p, d)

/-- `ArrowGame._can_add_orientation`. -/
def canAddOrientation (lm : LGrid) (p : Position) (o : Orientation) : Bool :=
  if !positionIsValid lm p then false
  else if cellHas lm p .goal || cellHas lm p .boulder then false
  else
    let np := cellAtOrientation p o
    if !positionIsValid lm np then false
    else if cellHas lm np .boulder then false
    else true

/-- The mutable editing state: `self._directions` and `self._remaining_arrows`. -/
structure EditState where
  directions : Directions
  remainingArrows : Int
deriving DecidableEq, Repr

/-- `ArrowGame._add_orientation`. -/
def addOrientation (lm : LGrid) (s : EditState) (p : Position) (o : Orientation) : EditState :=
  let np := cellAtOrientation p o
  if !positionIsValid lm np then s
  else
    let nOri := oppositeOrientation o
    let nq := getQ s.directions np
    let s1 : EditState :=
      if nOri ∈ nq then
        { directions := setQ s.directions np (nq.erase nOri),
          remainingArrows := s.remainingArrows + 1 }
      else s
    if s1.remainingArrows > 0 then
      { directions := setQ s1.directions p (o :: getQ s1.directions p),
        remainingArrows := s1.remainingArrows - 1 }
    else s1

/-- `ArrowGame._process_orientation`, the single editing entry point. -/
def processOrientation (lm : LGrid) (s : EditState) (p : Position) (o : Orientation) :
    EditState :=
  let addable := canAddOrientation lm p o
  match getQ s.directions p with
  | [] => if addable then addOrientation lm s p o else s
  | [d0] =>
    if d0 = o then
      { directions := setQ s.directions p [], remainingArrows := s.remainingArrows + 1 }
    else if addable then addOrientation lm s p o else s
  | d0 :: d1 :: rest =>
    if d0 = o then
      { directions := setQ s.directions p (d1 :: rest),
        remainingArrows := s.remainingArrows + 1 }
    else if d1 = o then
      { directions := setQ s.directions p (d1 :: d0 :: rest),
        remainingArrows := s.remainingArrows }
    else if addable then
      addOrientation lm
        { directions := setQ s.directions p (d0 :: rest),
          remainingArrows := s.remainingArrows + 1 } p o
    else s

/-- The fresh route table built in `__init__` and on reset. -/
def freshDirections (lm : LGrid) : Directions :=
  List.replicate (rowsOf lm) (List.replicate (colsOf lm) [])

/-- A fresh editing state: empty queues, full budget. -/
def freshState (lm : LGrid) (arrows : Int) : EditState :=
  { directions := freshDirections lm, remainingArrows := arrows }

/-- Apply a sequence of `_process_orientation` calls. -/
def applyTrace (lm : LGrid) (s : EditState) : List (Position × Orientation) → EditState
  | [] => s
  | (p, o) :: rest => applyTrace lm (processOrientation lm s p o) rest

/-- The row-major scan of `__init__` that records `self._start`
(`None` when no cell carries the Start tag). -/
def findStart (lm : LGrid) : Option Position :=
  (List.range (rowsOf lm)).findSome? fun r : Nat =>
    (List.range (colsOf lm)).findSome? fun c : Nat =>
      if cellHas lm ((r : Int), (c : Int)) .start then
        some (((r : Int), (c : Int)) : Position)
      else none

/-- The session state produced by `ArrowGame.__init__` (presentation-layer
fields omitted). -/
structure Game where
  landmarks : LGrid
  totalArrows : Int
  remainingArrows : Int
  directions : Directions
  start : Option Position
deriving DecidableEq, Repr

/-- `ArrowGame.__init__`: the constructor always returns a session; when no
cell carries the Start tag it records `self._start = None`. -/
def mkGame (lm : LGrid) (arrows : Int) : Game :=
  { landmarks := lm
    totalArrows := arrows
    remainingArrows := arrows
    directions := freshDirections lm
    start := findStart lm }

/-- `GOAL in self._landmarks[p]`. -/
def goalAt (lm : LGrid) (p : Position) : Bool := cellHas lm p .goal

/-- The body of the `while True` loop of `ArrowGame._get_moves`, with an
explicit fuel parameter standing for the number of loop iterations still
allowed (`none` means the iteration bound was hit; the theorems show a
sufficient bound always exists, i.e. the Python loop terminates). -/
def getMovesLoop (lm : LGrid) :
    Nat → Position × Directions → Position × Directions → Int → Option Int
  | 0, _, _, _ => none
  | fuel + 1, t, h, moves =>
    if goalAt lm h.1 then some moves
    else
      let a1 := advance lm h.1 h.2
      if !a1.1 then some (-1)
      else if goalAt lm a1.2.1 then some (moves + 1)
      else
        let a2 := advance lm a1.2.1 a1.2.2
        if !a2.1 then some (-1)
        else
          let a3 := advance lm t.1 t.2
          if a3.2 = a2.2 then some (-1)
          else getMovesLoop lm fuel a3.2 a2.2 (moves + 2)

/-- `ArrowGame._get_moves`: tortoise and hare both start at the start
position with their own deep copy of the route table. -/
def getMovesF (lm : LGrid) (d : Directions) (st : Position) (fuel : Nat) : Option Int :=
  getMovesLoop lm fuel (st, d) (st, d) 0

/-- One step of the deterministic walk: `_advance` as a partial step
function on `(position, directions)` states (`none` at a dead end). -/
def stepSim (lm : LGrid) (s : Position × Directions) : Option (Position × Directions) :=
  let a := advance lm s.1 s.2
  if a.1 then some a.2 else none

/-- The deterministic walk after `n` steps from state `s0`
(`none` once the walk has dead-ended). -/
def traj (lm : LGrid) (s0 : Position × Directions) : Nat → Option (Position × Directions)
  | 0 => some s0
  | n + 1 => (traj lm s0 n).bind (stepSim lm)

/-- Whether the walk is on a Goal cell after exactly `n` steps. -/
def trajGoalB (lm : LGrid) (s0 : Position × Directions) (n : Nat) : Bool :=
  ((traj lm s0 n).map fun s => goalAt lm s.1).getD false

/-- `ArrowGame._get_moves` as a session operation: the method reads
`self._landmarks`, `self._directions` and `self._start`, works on deep
copies of the latter two, and writes no field of `self`, so the
state-passing translation returns the session unchanged.  `none` models
the crash on `self._start = None` (and exhausted fuel). -/
def evaluateOp (g : Game) (fuel : Nat) : Option (Int × Game) :=
  match g.start with
  | none => none
  | some st => (getMovesF g.landmarks g.directions st fuel).map fun r => (r, g)

/-- Shape of a route table: one queue per grid cell, as built by
`__init__` / reset. -/
def Shape (lm : LGrid) (d : Directions) : Prop :=
  d.length = rowsOf lm ∧ ∀ r ∈ d, r.length = colsOf lm

instance (lm : LGrid) (d : Directions) : Decidable (Shape lm d) := by
  unfold Shape; infer_instance

/-- Total number of arrows in one row of the route table. -/
def rowCount (r : List Queue) : Nat := (r.map List.length).sum

/-- Total number of placed arrows: the sum of all queue lengths. -/
def dirCount (d : Directions) : Nat := (d.map rowCount).sum

/-- Queues are at most two long and duplicate-free. -/
def QInv (d : Directions) : Prop :=
  ∀ p : Position, (getQ d p).length ≤ 2 ∧ (getQ d p).Nodup

/-- Edge exclusivity: no edge carries arrows from both endpoints. -/
def EdgeInv (lm : LGrid) (d : Directions) : Prop :=
  ∀ (p : Position) (o : Orientation),
    positionIsValid lm p = true → positionIsValid lm (cellAtOrientation p o) = true →
    ¬(o ∈ getQ d p ∧ oppositeOrientation o ∈ getQ d (cellAtOrientation p o))

/-- All invariants of the editing state together. -/
def Inv (lm : LGrid) (total : Int) (s : EditState) : Prop :=
  Shape lm s.directions ∧
  s.remainingArrows + (dirCount s.directions : Int) = total ∧
  0 ≤ s.remainingArrows ∧
  QInv s.directions ∧
  EdgeInv lm s.directions

/-- A queue is the original one or its swap. -/
def QRel (a b : Queue) : Prop := b = a ∨ b = swap2 a

/-- A route table reachable from `d0` by per-cell swaps. -/
def DirRel (d0 d : Directions) : Prop :=
  List.Forall₂ (List.Forall₂ QRel) d0 d

/-- The finitely many queues a cell can hold during a walk. -/
def queueChoices (q : Queue) : Finset Queue := {q, swap2 q}

/-- The finitely many values one row of the route table can take. -/
def rowChoices : List Queue → Finset (List Queue)
  | [] => {[]}
  | q :: qs => Finset.image₂ List.cons (queueChoices q) (rowChoices qs)

/-- The finitely many values the route table can take during a walk. -/
def dirChoices : Directions → Finset Directions
  | [] => {[]}
  | r :: rs => Finset.image₂ List.cons (rowChoices r) (dirChoices rs)

/-- The finitely many valid positions. -/
def validPositions (lm : LGrid) : Finset Position :=
  ((Finset.range (rowsOf lm)) ×ˢ (Finset.range (colsOf lm))).image
    fun rc => ((rc.1 : Int), (rc.2 : Int))

/-- The finite set of states the walk can visit. -/
def stateChoices (lm : LGrid) (d0 : Directions) : Finset (Position × Directions) :=
  (validPositions lm) ×ˢ (dirChoices d0)

/-! ### Basic list-indexing lemmas -/

theorem getD_set_self {α : Type} (l : List α) (i : Nat) (v d : α) (h : i < l.length) :
    (l.set i v).getD i d = v := by
  rw [List.getD_eq_getElem _ _ (by simpa using h)]
  simp [List.getElem_set_self]

theorem getD_set_ne {α : Type} (l : List α) (i j : Nat) (v d : α) (h : i ≠ j) :
    (l.set i v).getD j d = l.getD j d := by
  by_cases hj : j < l.length
  · rw [List.getD_eq_getElem _ _ (by simpa using hj), List.getD_eq_getElem _ _ hj]
    exact List.getElem_set_ne (by simpa using h) ..
  · rw [List.getD_eq_default _ _ (by simpa using Nat.le_of_not_lt hj),
      List.getD_eq_default _ _ (Nat.le_of_not_lt hj)]

theorem getD_set_or {α : Type} (l : List α) (i : Nat) (v d : α) (j : Nat) :
    (l.set i v).getD j d = l.getD j d ∨ (l.set i v).getD j d = v := by
  by_cases h : i = j
  · subst h
    by_cases hi : i < l.length
    · right; rw [List.getD_eq_getElem _ _ (by simpa using hi)]; simp
    · left; rw [List.set_eq_of_length_le (Nat.le_of_not_lt hi)]
  · left
    by_cases hj : j < l.length
    · rw [List.getD_eq_getElem _ _ (by simpa using hj), List.getD_eq_getElem _ _ hj]
      exact List.getElem_set_ne (by simpa using h) ..
    · rw [List.getD_eq_default _ _ (by simpa using Nat.le_of_not_lt hj),
        List.getD_eq_default _ _ (Nat.le_of_not_lt hj)]

/-- Positions in bounds index into a well-shaped route table. -/
theorem inRange_of_valid {lm : LGrid} {d : Directions} {p : Position}
    (hs : Shape lm d) (hv : positionIsValid lm p = true) :
    p.1.toNat < d.length ∧ p.2.toNat < (d.getD p.1.toNat []).length := by
  have hv' := of_decide_eq_true hv
  obtain ⟨h1, h2, h3, h4⟩ := hv'
  have hr : p.1.toNat < rowsOf lm := by omega
  have hrow : p.1.toNat < d.length := by rw [hs.1]; exact hr
  refine ⟨hrow, ?_⟩
  have hmem : d.getD p.1.toNat [] ∈ d := by
    rw [List.getD_eq_getElem _ _ hrow]
    exact List.getElem_mem _
  rw [hs.2 _ hmem]
  omega

theorem getQ_setQ_self {lm : LGrid} {d : Directions} {p : Position} (q : Queue)
    (hs : Shape lm d) (hv : positionIsValid lm p = true) :
    getQ (setQ d p q) p = q := by
  obtain ⟨h1, h2⟩ := inRange_of_valid hs hv
  unfold getQ setQ
  rw [getD_set_self _ _ _ _ h1, getD_set_self _ _ _ _ h2]

theorem getQ_setQ_ne {d : Directions} {p p' : Position} (q : Queue)
    (h : p.1.toNat ≠ p'.1.toNat ∨ p.2.toNat ≠ p'.2.toNat) :
    getQ (setQ d p q) p' = getQ d p' := by
  unfold getQ setQ
  rcases h with h | h
  · rw [getD_set_ne _ _ _ _ _ h]
  · rcases eq_or_ne p.1.toNat p'.1.toNat with he | he
    · rcases Nat.lt_or_ge p.1.toNat d.length with hl | hl
      · rw [← he, getD_set_self _ _ _ _ hl, getD_set_ne _ _ _ _ _ h]
      · rw [List.set_eq_of_length_le hl]
    · rw [getD_set_ne _ _ _ _ _ he]

/-- Two distinct valid positions differ in at least one `toNat` index. -/
theorem toNat_idx_ne {lm : LGrid} {p p' : Position}
    (hp : positionIsValid lm p = true) (hp' : positionIsValid lm p' = true)
    (hne : p ≠ p') :
    p.1.toNat ≠ p'.1.toNat ∨ p.2.toNat ≠ p'.2.toNat := by
  have h1 := of_decide_eq_true hp
  have h2 := of_decide_eq_true hp'
  by_contra hc
  push_neg at hc
  apply hne
  have e1 : p.1 = p'.1 := by omega
  have e2 : p.2 = p'.2 := by omega
  exact Prod.ext e1 e2

/-- Every value of `getQ` after a `setQ` is either the old queue there or
the written queue. -/
theorem getQ_setQ_or (d : Directions) (p : Position) (q : Queue) (p' : Position) :
    getQ (setQ d p q) p' = getQ d p' ∨ getQ (setQ d p q) p' = q := by
  unfold getQ setQ
  by_cases he : p.1.toNat = p'.1.toNat
  · rcases getD_set_or d p.1.toNat ((d.getD p.1.toNat []).set p.2.toNat q) [] p'.1.toNat
      with h | h
    · rw [h]; left; rfl
    · rw [h, ← he]
      exact getD_set_or _ _ _ _ _
  · rw [getD_set_ne _ _ _ _ _ he]; left; rfl

/-- A step never moves a cell by more than swapping: geometric helper. -/
theorem cellAtOrientation_ne (p : Position) (o : Orientation) :
    cellAtOrientation p o ≠ p := by
  cases o <;> simp [cellAtOrientation, Prod.ext_iff]

/-- The two endpoints of an edge determine each other. -/
theorem cellAtOrientation_opposite (p : Position) (o : Orientation) :
    cellAtOrientation (cellAtOrientation p o) (oppositeOrientation o) = p := by
  cases o <;> simp [cellAtOrientation, oppositeOrientation, Prod.ext_iff]

/-! ### C4: legality of placement -/

/-- C4: `_can_add_orientation` returns true exactly when the position is in
bounds, its cell carries neither Goal nor Obstacle, the neighbour in the
requested direction is in bounds, and that neighbour carries no Obstacle. -/
theorem canAddOrientation_iff (lm : LGrid) (p : Position) (o : Orientation) :
    canAddOrientation lm p o = true ↔
      (positionIsValid lm p = true ∧
        Landmark.goal ∉ getCell lm p ∧
        Landmark.boulder ∉ getCell lm p ∧
        positionIsValid lm (cellAtOrientation p o) = true ∧
        Landmark.boulder ∉ getCell lm (cellAtOrientation p o)) := by
  unfold canAddOrientation
  split_ifs with h1 h2 h3 h4 <;> simp_all [cellHas] <;> tauto

/-! ### C6: stepping toward an off-grid or blocked neighbour -/

/-- C6 fails as stated: on a 1×2 grid whose second cell carries an
Obstacle, a configured arrow pointing right from the first cell makes
`_advance` move onto the Obstacle cell (`moved = true`), because the code
only validates bounds, never the Obstacle tag. -/
theorem advance_into_boulder_moves :
    getQ [[[Orientation.right], []]] (0, 0) ≠ [] ∧
    Landmark.boulder ∈
      getCell [[[], [Landmark.boulder]]] (cellAtOrientation (0, 0) Orientation.right) ∧
    advance [[[], [Landmark.boulder]]] (0, 0) [[[Orientation.right], []]] =
      (true, (0, 1), [[[Orientation.right], []]]) := by
  refine ⟨by decide, by decide, by decide⟩

/-- C6 (amended): if the queue at `p` is non-empty but its active direction
points off-grid, `_advance` returns `moved = false` with position and route
table unchanged (in particular no two-entry queue is swapped). -/
theorem advance_offgrid_noop (lm : LGrid) (p : Position) (d : Directions)
    (o : Orientation) (rest : Queue) (hq : getQ d p = o :: rest)
    (hv : positionIsValid lm (cellAtOrientation p o) = false) :
    advance lm p d = (false, p, d) := by
  unfold advance
  rw [hq]
  simp [hv]

/-- Witness for the amended C6 at a concrete input: a single-cell grid with
an upward arrow (pointing off-grid). -/
theorem advance_offgrid_noop_witness :
    getQ [[[Orientation.up]]] (0, 0) = [Orientation.up] ∧
    positionIsValid [[[Landmark.start]]] (cellAtOrientation (0, 0) Orientation.up) = false ∧
    advance [[[Landmark.start]]] (0, 0) [[[Orientation.up]]] =
      (false, (0, 0), [[[Orientation.up]]]) :=
  ⟨by decide, by decide,
    advance_offgrid_noop [[[Landmark.start]]] (0, 0) [[[Orientation.up]]]
      Orientation.up [] (by decide) (by decide)⟩

/-! ### C10: goal on the start cell -/

/-- C10: when the start cell itself carries Goal, `_get_moves` returns 0
for every routing configuration — the goal check precedes the first
advance. -/
theorem getMoves_zero_at_goal (lm : LGrid) (d : Directions) (st : Position)
    (fuel : Nat) (hg : goalAt lm st = true) (hf : 0 < fuel) :
    getMovesF lm d st fuel = some 0 := by
  obtain ⟨f, rfl⟩ : ∃ f, fuel = f + 1 := ⟨fuel - 1, (Nat.succ_pred_eq_of_pos hf).symm⟩
  unfold getMovesF getMovesLoop
  simp [hg]

/-- Witness for C10 on a 1×1 grid whose only cell is Start and Goal. -/
theorem getMoves_zero_at_goal_witness :
    goalAt [[[Landmark.start, Landmark.goal]]] (0, 0) = true ∧ (0 : Nat) < 1 ∧
    getMovesF [[[Landmark.start, Landmark.goal]]] [[[]]] (0, 0) 1 = some 0 :=
  ⟨by decide, by decide,
    getMoves_zero_at_goal [[[Landmark.start, Landmark.goal]]] [[[]]] (0, 0) 1
      (by decide) (by decide)⟩

/-! ### C8: evaluation does not perturb the session -/

/-- C8: `_get_moves` works on deep copies, so the session — in particular
`self._directions` and `self._remaining_arrows` — is unchanged by a
successful evaluation, and re-evaluating in the resulting state yields the
same answer. -/
theorem evaluate_frame (g : Game) (fuel : Nat) (r : Int) (g' : Game)
    (h : evaluateOp g fuel = some (r, g')) :
    g' = g ∧ evaluateOp g' fuel = some (r, g') := by
  have hg : g' = g := by
    unfold evaluateOp at h
    cases hst : g.start with
    | none => rw [hst] at h; simp at h
    | some st =>
      rw [hst, Option.map_eq_some'] at h
      obtain ⟨x, hx, hxe⟩ := h
      rw [Prod.mk.injEq] at hxe
      exact hxe.2.symm
  subst hg
  exact ⟨rfl, h⟩

/-- Witness for C8: evaluating a 1×2 session with the goal next to the
start returns `-1` (no arrows placed) and the session value unchanged. -/
theorem evaluate_frame_witness :
    evaluateOp (mkGame [[[Landmark.start], [Landmark.goal]]] 1) 2 =
      some (-1, mkGame [[[Landmark.start], [Landmark.goal]]] 1) ∧
    (mkGame [[[Landmark.start], [Landmark.goal]]] 1 =
        mkGame [[[Landmark.start], [Landmark.goal]]] 1 ∧
      evaluateOp (mkGame [[[Landmark.start], [Landmark.goal]]] 1) 2 =
        some (-1, mkGame [[[Landmark.start], [Landmark.goal]]] 1)) :=
  ⟨by decide,
    evaluate_frame (mkGame [[[Landmark.start], [Landmark.goal]]] 1) 2 (-1)
      (mkGame [[[Landmark.start], [Landmark.goal]]] 1) (by decide)⟩

/-! ### C9: sessions without a Start tag -/

/-- C9 fails as stated: the constructor does not fail on a grid without a
Start tag — it builds the session and records `self._start = None`
(here, on a 1×1 grid with an empty landmark list). -/
theorem mkGame_no_start_built :
    (([[[]]] : LGrid).all fun row => row.all fun c => !decide (Landmark.start ∈ c)) = true ∧
    mkGame [[[]]] 0 =
      { landmarks := [[[]]], totalArrows := 0, remainingArrows := 0,
        directions := [[[]]], start := none } := by
  refine ⟨by decide, by decide⟩

/-- A `findSome?` over a list succeeds when it succeeds on some element. -/
theorem findSome?_isSome_of_mem {α β : Type} {l : List α} {f : α → Option β} {a : α}
    (ha : a ∈ l) (hs : (f a).isSome = true) : (l.findSome? f).isSome = true := by
  induction l with
  | nil => simp at ha
  | cons x xs ih =>
    rw [List.findSome?_cons]
    cases hfx : f x with
    | some v => simp
    | none =>
      rcases List.mem_cons.mp ha with rfl | hm
      · rw [hfx] at hs; simp at hs
      · exact ih hm

/-- C9 (amended): construction never fails; whenever some cell carries the
Start tag, the constructed session's start field holds a valid position
whose cell is tagged Start. -/
theorem mkGame_start_tagged (lm : LGrid) (arrows : Int)
    (hex : ∃ p : Position, positionIsValid lm p = true ∧ Landmark.start ∈ getCell lm p) :
    ∃ p, (mkGame lm arrows).start = some p ∧ positionIsValid lm p = true ∧
      Landmark.start ∈ getCell lm p := by
  obtain ⟨p, hv, hmem⟩ := hex
  obtain ⟨h1, h2, h3, h4⟩ := of_decide_eq_true hv
  have hpe : (((p.1.toNat : Int), (p.2.toNat : Int)) : Position) = p := by
    rcases p with ⟨a, b⟩
    simp only [Prod.mk.injEq]
    constructor <;> [exact Int.toNat_of_nonneg h1; exact Int.toNat_of_nonneg h3]
  have houter : (findStart lm).isSome = true := by
    unfold findStart
    apply findSome?_isSome_of_mem (a := p.1.toNat)
    · exact List.mem_range.mpr (by omega)
    · apply findSome?_isSome_of_mem (a := p.2.toNat)
      · exact List.mem_range.mpr (by omega)
      · have hc : cellHas lm ((p.1.toNat : Int), (p.2.toNat : Int)) .start = true := by
          rw [hpe]; exact decide_eq_true hmem
        rw [hc]
        simp
  obtain ⟨q, hq⟩ := Option.isSome_iff_exists.mp houter
  have hq' := hq
  unfold findStart at hq'
  obtain ⟨r, hr, hrq⟩ := List.exists_of_findSome?_eq_some hq'
  obtain ⟨c, hc, hcq⟩ := List.exists_of_findSome?_eq_some hrq
  have hr' := List.mem_range.mp hr
  have hc' := List.mem_range.mp hc
  by_cases hsb : cellHas lm ((r : Int), (c : Int)) .start = true
  · rw [if_pos hsb] at hcq
    obtain rfl : (((r : Int), (c : Int)) : Position) = q := Option.some.inj hcq
    refine ⟨((r : Int), (c : Int)), hq, ?_, of_decide_eq_true hsb⟩
    simp only [positionIsValid, decide_eq_true_eq]
    refine ⟨by omega, by exact_mod_cast Int.ofNat_lt.mpr hr', by omega,
      by exact_mod_cast Int.ofNat_lt.mpr hc'⟩
  · rw [if_neg hsb] at hcq
    cases hcq

/-- Witness for the amended C9 on a 1×1 grid tagged Start. -/
theorem mkGame_start_tagged_witness :
    (∃ p : Position, positionIsValid [[[Landmark.start]]] p = true ∧
      Landmark.start ∈ getCell [[[Landmark.start]]] p) ∧
    (∃ p, (mkGame [[[Landmark.start]]] 0).start = some p ∧
      positionIsValid [[[Landmark.start]]] p = true ∧
      Landmark.start ∈ getCell [[[Landmark.start]]] p) :=
  ⟨⟨(0, 0), by decide, by decide⟩,
    mkGame_start_tagged [[[Landmark.start]]] 0 ⟨(0, 0), by decide, by decide⟩⟩

/-! ### C5: toggling on a two-entry queue -/

/-- C5: on a cell whose queue holds exactly two entries, `_process_orientation`
removes the active entry (refunding one arrow) when asked for it, swaps the
two entries (budget untouched) when asked for the inactive one, and
otherwise — when the requested direction is legal — retracts the inactive
entry with a refund and runs `_add_orientation` (with its opposite-edge
retraction) on the requested direction; an illegal request changes nothing. -/
theorem processOrientation_two (lm : LGrid) (s : EditState) (p : Position)
    (o d0 d1 : Orientation)
    (hs : Shape lm s.directions) (hp : positionIsValid lm p = true)
    (hq : getQ s.directions p = [d0, d1]) :
    (o = d0 →
      getQ (processOrientation lm s p o).directions p = [d1] ∧
      (processOrientation lm s p o).remainingArrows = s.remainingArrows + 1 ∧
      ∀ q : Position, positionIsValid lm q = true → q ≠ p →
        getQ (processOrientation lm s p o).directions q = getQ s.directions q) ∧
    (o = d1 → o ≠ d0 →
      getQ (processOrientation lm s p o).directions p = [d1, d0] ∧
      (processOrientation lm s p o).remainingArrows = s.remainingArrows ∧
      ∀ q : Position, positionIsValid lm q = true → q ≠ p →
        getQ (processOrientation lm s p o).directions q = getQ s.directions q) ∧
    (o ≠ d0 → o ≠ d1 → canAddOrientation lm p o = true →
      processOrientation lm s p o =
        addOrientation lm
          { directions := setQ s.directions p [d0],
            remainingArrows := s.remainingArrows + 1 } p o) ∧
    (o ≠ d0 → o ≠ d1 → canAddOrientation lm p o = false →
      processOrientation lm s p o = s) := by
  refine ⟨?_, ?_, ?_, ?_⟩
  · rintro rfl
    have hres : processOrientation lm s p o =
        { directions := setQ s.directions p [d1],
          remainingArrows := s.remainingArrows + 1 } := by
      simp only [processOrientation, hq]
      simp
    rw [hres]
    refine ⟨getQ_setQ_self _ hs hp, rfl, ?_⟩
    intro q hvq hne
    exact getQ_setQ_ne _ (toNat_idx_ne hp hvq (fun he => hne he.symm))
  · rintro rfl hne
    have hres : processOrientation lm s p o =
        { directions := setQ s.directions p [o, d0],
          remainingArrows := s.remainingArrows } := by
      simp only [processOrientation, hq]
      rw [if_neg (fun h : d0 = o => hne h.symm)]
      simp
    rw [hres]
    refine ⟨getQ_setQ_self _ hs hp, rfl, ?_⟩
    intro q hvq hqe
    exact getQ_setQ_ne _ (toNat_idx_ne hp hvq (fun he => hqe he.symm))
  · intro h0 h1 hadd
    simp only [processOrientation, hq, hadd]
    rw [if_neg (fun h : d0 = o => h0 h.symm), if_neg (fun h : d1 = o => h1 h.symm)]
    simp
  · intro h0 h1 hadd
    simp only [processOrientation, hq, hadd]
    rw [if_neg (fun h : d0 = o => h0 h.symm), if_neg (fun h : d1 = o => h1 h.symm)]
    simp

/-- Witness for C5 at a concrete two-entry queue `[right, left]` on a 1×2
grid. -/
theorem processOrientation_two_witness :
    Shape [[[], []]] [[[Orientation.right, Orientation.left], []]] ∧
    positionIsValid [[[], []]] (0, 0) = true ∧
    getQ [[[Orientation.right, Orientation.left], []]] (0, 0) =
      [Orientation.right, Orientation.left] ∧
    ((Orientation.right = Orientation.right →
      getQ (processOrientation [[[], []]]
          ⟨[[[Orientation.right, Orientation.left], []]], 5⟩ (0, 0)
          Orientation.right).directions (0, 0) = [Orientation.left] ∧
      (processOrientation [[[], []]]
          ⟨[[[Orientation.right, Orientation.left], []]], 5⟩ (0, 0)
          Orientation.right).remainingArrows = 5 + 1 ∧
      ∀ q : Position, positionIsValid [[[], []]] q = true → q ≠ (0, 0) →
        getQ (processOrientation [[[], []]]
            ⟨[[[Orientation.right, Orientation.left], []]], 5⟩ (0, 0)
            Orientation.right).directions q =
          getQ [[[Orientation.right, Orientation.left], []]] q) ∧
    (Orientation.right = Orientation.left → Orientation.right ≠ Orientation.right →
      getQ (processOrientation [[[], []]]
          ⟨[[[Orientation.right, Orientation.left], []]], 5⟩ (0, 0)
          Orientation.right).directions (0, 0) = [Orientation.left, Orientation.right] ∧
      (processOrientation [[[], []]]
          ⟨[[[Orientation.right, Orientation.left], []]], 5⟩ (0, 0)
          Orientation.right).remainingArrows = 5 ∧
      ∀ q : Position, positionIsValid [[[], []]] q = true → q ≠ (0, 0) →
        getQ (processOrientation [[[], []]]
            ⟨[[[Orientation.right, Orientation.left], []]], 5⟩ (0, 0)
            Orientation.right).directions q =
          getQ [[[Orientation.right, Orientation.left], []]] q) ∧
    (Orientation.right ≠ Orientation.right → Orientation.right ≠ Orientation.left →
      canAddOrientation [[[], []]] (0, 0) Orientation.right = true →
      processOrientation [[[], []]]
          ⟨[[[Orientation.right, Orientation.left], []]], 5⟩ (0, 0) Orientation.right =
        addOrientation [[[], []]]
          { directions := setQ [[[Orientation.right, Orientation.left], []]] (0, 0)
              [Orientation.right],
            remainingArrows := 5 + 1 } (0, 0) Orientation.right) ∧
    (Orientation.right ≠ Orientation.right → Orientation.right ≠ Orientation.left →
      canAddOrientation [[[], []]] (0, 0) Orientation.right = false →
      processOrientation [[[], []]]
          ⟨[[[Orientation.right, Orientation.left], []]], 5⟩ (0, 0) Orientation.right =
        ⟨[[[Orientation.right, Orientation.left], []]], 5⟩)) :=
  ⟨by decide, by decide, by decide,
    processOrientation_two [[[], []]]
      ⟨[[[Orientation.right, Orientation.left], []]], 5⟩ (0, 0)
      Orientation.right Orientation.right Orientation.left
      (by decide) (by decide) (by decide)⟩

/-! ### Helpers for the editing invariants -/

theorem getD_irrel {α : Type} (l : List α) (i : Nat) (v w : α) (h : i < l.length) :
    l.getD i v = l.getD i w := by
  rw [List.getD_eq_getElem _ _ h, List.getD_eq_getElem _ _ h]

theorem sum_map_set {α : Type} (f : α → Nat) (l : List α) (i : Nat) (v w : α)
    (h : i < l.length) :
    ((l.set i v).map f).sum + f (l.getD i w) = (l.map f).sum + f v := by
  induction l generalizing i with
  | nil => simp at h
  | cons x xs ih =>
    cases i with
    | zero => simp [List.set]; omega
    | succ n =>
      simp only [List.set, List.map_cons, List.sum_cons, List.getD_cons_succ]
      have := ih n (by simpa using Nat.lt_of_succ_lt_succ h)
      omega

/-- Replacing one queue changes the arrow count by the difference of queue
lengths. -/
theorem dirCount_setQ {lm : LGrid} {d : Directions} {p : Position} (q : Queue)
    (hs : Shape lm d) (hp : positionIsValid lm p = true) :
    dirCount (setQ d p q) + (getQ d p).length = dirCount d + q.length := by
  obtain ⟨hr, hc⟩ := inRange_of_valid hs hp
  unfold dirCount setQ getQ
  have e1 := sum_map_set rowCount d p.1.toNat
    ((d.getD p.1.toNat []).set p.2.toNat q) [] hr
  have e2 : rowCount ((d.getD p.1.toNat []).set p.2.toNat q) +
      ((d.getD p.1.toNat []).getD p.2.toNat []).length =
      rowCount (d.getD p.1.toNat []) + q.length :=
    sum_map_set List.length (d.getD p.1.toNat []) p.2.toNat q [] hc
  omega

/-- `setQ` keeps the grid shape of the route table. -/
theorem Shape_setQ {lm : LGrid} {d : Directions} (p : Position) (q : Queue)
    (hs : Shape lm d) : Shape lm (setQ d p q) := by
  rcases Nat.lt_or_ge p.1.toNat d.length with hlt | hge
  · constructor
    · rw [setQ, List.length_set]; exact hs.1
    · intro r hr
      rcases List.mem_or_eq_of_mem_set hr with hm | he
      · exact hs.2 r hm
      · subst he
        rw [List.length_set]
        apply hs.2
        rw [List.getD_eq_getElem _ _ hlt]
        exact List.getElem_mem _
  · rw [setQ, List.set_eq_of_length_le hge]
    exact hs

/-- On valid positions and a well-shaped table, `setQ` behaves as a map
update. -/
theorem getQ_setQ_cases {lm : LGrid} {d : Directions} {y x : Position} (q : Queue)
    (hs : Shape lm d) (hy : positionIsValid lm y = true)
    (hx : positionIsValid lm x = true) :
    getQ (setQ d y q) x = if x = y then q else getQ d x := by
  by_cases he : x = y
  · subst he; rw [if_pos rfl]; exact getQ_setQ_self q hs hx
  · rw [if_neg he]
    exact getQ_setQ_ne q (toNat_idx_ne hy hx (fun h => he h.symm))

/-- Queue invariants survive writing any short duplicate-free queue. -/
theorem QInv_setQ {d : Directions} (p : Position) (q : Queue)
    (hQ : QInv d) (hq : q.length ≤ 2 ∧ q.Nodup) : QInv (setQ d p q) := by
  intro x
  rcases getQ_setQ_or d p q x with h | h
  · rw [h]; exact hQ x
  · rw [h]; exact hq

/-- Edge exclusivity survives pointwise shrinking of the queues. -/
theorem EdgeInv_mono {lm : LGrid} {d d' : Directions}
    (hsub : ∀ x : Position, positionIsValid lm x = true → getQ d' x ⊆ getQ d x)
    (he : EdgeInv lm d) : EdgeInv lm d' := by
  intro p o hp hnp hm
  exact he p o hp hnp ⟨hsub p hp hm.1, hsub _ hnp hm.2⟩

theorem opp_opp (o : Orientation) : oppositeOrientation (oppositeOrientation o) = o := by
  cases o <;> rfl

/-- Orientations of opposite arrows across one edge determine each other. -/
theorem cellAt_partner {p' : Position} {o' : Orientation} {p : Position}
    (h : cellAtOrientation p' o' = p) :
    p' = cellAtOrientation p (oppositeOrientation o') := by
  rw [← h, cellAtOrientation_opposite]

/-- The fresh route table holds an empty queue everywhere. -/
theorem getQ_fresh (lm : LGrid) (p : Position) : getQ (freshDirections lm) p = [] := by
  unfold getQ freshDirections
  rcases Nat.lt_or_ge p.1.toNat (rowsOf lm) with hr | hr
  · have h1 : (List.replicate (rowsOf lm) (List.replicate (colsOf lm) ([] : Queue))).getD
        p.1.toNat [] = List.replicate (colsOf lm) [] := by
      rw [List.getD_eq_getElem _ _ (by simpa using hr)]
      exact List.getElem_replicate ..
    rw [h1]
    rcases Nat.lt_or_ge p.2.toNat (colsOf lm) with hc | hc
    · rw [List.getD_eq_getElem _ _ (by simpa using hc)]
      exact List.getElem_replicate ..
    · exact List.getD_eq_default _ _ (by simpa using hc)
  · have h1 : (List.replicate (rowsOf lm) (List.replicate (colsOf lm) ([] : Queue))).getD
        p.1.toNat [] = [] := List.getD_eq_default _ _ (by simpa using hr)
    rw [h1]
    simp

theorem dirCount_fresh (lm : LGrid) : dirCount (freshDirections lm) = 0 := by
  unfold dirCount freshDirections
  simp [rowCount]

theorem Shape_fresh (lm : LGrid) : Shape lm (freshDirections lm) := by
  constructor
  · simp [freshDirections, rowsOf]
  · intro r hr
    rw [List.eq_of_mem_replicate hr]
    simp

/-- The fresh session satisfies every editing invariant. -/
theorem Inv_fresh (lm : LGrid) (total : Int) (h : 0 ≤ total) :
    Inv lm total (freshState lm total) := by
  refine ⟨Shape_fresh lm, ?_, h, ?_, ?_⟩
  · simp [freshState, dirCount_fresh]
  · intro p; rw [freshState, getQ_fresh]; simp
  · intro p o hp hnp hm
    rw [freshState] at hm
    rw [getQ_fresh] at hm
    simp at hm

/-- `_add_orientation` when the target cell is off-grid: nothing happens. -/
theorem addOrientation_eq_invalid {lm : LGrid} {s : EditState} {p : Position}
    {o : Orientation} (h : positionIsValid lm (cellAtOrientation p o) = false) :
    addOrientation lm s p o = s := by
  simp [addOrientation, h]

/-- `_add_orientation` when the opposite arrow occupies the edge: it is
erased with a refund before the insertion attempt. -/
theorem addOrientation_eq_erase {lm : LGrid} {s : EditState} {p : Position}
    {o : Orientation} (h : positionIsValid lm (cellAtOrientation p o) = true)
    (hc : oppositeOrientation o ∈ getQ s.directions (cellAtOrientation p o)) :
    addOrientation lm s p o =
      (if s.remainingArrows + 1 > 0 then
        { directions :=
            setQ (setQ s.directions (cellAtOrientation p o)
                ((getQ s.directions (cellAtOrientation p o)).erase (oppositeOrientation o)))
              p (o :: getQ (setQ s.directions (cellAtOrientation p o)
                ((getQ s.directions (cellAtOrientation p o)).erase (oppositeOrientation o))) p),
          remainingArrows := s.remainingArrows + 1 - 1 }
      else
        { directions :=
            setQ s.directions (cellAtOrientation p o)
              ((getQ s.directions (cellAtOrientation p o)).erase (oppositeOrientation o)),
          remainingArrows := s.remainingArrows + 1 } : EditState) := by
  simp [addOrientation, h, hc]

/-- `_add_orientation` when the edge is free: plain front insertion, budget
permitting. -/
theorem addOrientation_eq_noerase {lm : LGrid} {s : EditState} {p : Position}
    {o : Orientation} (h : positionIsValid lm (cellAtOrientation p o) = true)
    (hc : oppositeOrientation o ∉ getQ s.directions (cellAtOrientation p o)) :
    addOrientation lm s p o =
      (if s.remainingArrows > 0 then
        { directions := setQ s.directions p (o :: getQ s.directions p),
          remainingArrows := s.remainingArrows - 1 }
      else s : EditState) := by
  simp [addOrientation, h, hc]

/-- All editing invariants survive the front insertion performed by
`_add_orientation`, given the facts established by its erase phase. -/
theorem insert_inv (lm : LGrid) (total : Int) (d1 : Directions) (r1 : Int)
    (p : Position) (o : Orientation)
    (hp : positionIsValid lm p = true)
    (hnp : positionIsValid lm (cellAtOrientation p o) = true)
    (hS1 : Shape lm d1)
    (hpos : 0 < r1)
    (hB1 : r1 + (dirCount d1 : Int) = total)
    (hQ1 : QInv d1)
    (hE1 : EdgeInv lm d1)
    (f6 : oppositeOrientation o ∉ getQ d1 (cellAtOrientation p o))
    (hlen : (getQ d1 p).length ≤ 1)
    (hno : o ∉ getQ d1 p) :
    Inv lm total
      { directions := setQ d1 p (o :: getQ d1 p), remainingArrows := r1 - 1 } := by
  have hpne : p ≠ cellAtOrientation p o := fun h => cellAtOrientation_ne p o h.symm
  have hcnt := dirCount_setQ (o :: getQ d1 p) hS1 hp
  refine ⟨Shape_setQ _ _ hS1, ?_, by show (0:Int) ≤ r1 - 1; omega, ?_, ?_⟩
  · show r1 - 1 + (dirCount (setQ d1 p (o :: getQ d1 p)) : Int) = total
    simp only [List.length_cons] at hcnt
    omega
  · apply QInv_setQ _ _ hQ1
    constructor
    · simp only [List.length_cons]; omega
    · exact List.nodup_cons.mpr ⟨hno, (hQ1 p).2⟩
  · intro p' o' hv' hvn' hm
    obtain ⟨hm1, hm2⟩ := hm
    rw [getQ_setQ_cases _ hS1 hp hv'] at hm1
    rw [getQ_setQ_cases _ hS1 hp hvn'] at hm2
    by_cases hep : p' = p
    · subst hep
      rw [if_pos rfl] at hm1
      rcases List.mem_cons.mp hm1 with rfl | hm1'
      · -- the new arrow itself: its edge was cleared
        rw [if_neg (fun h => hpne h.symm)] at hm2
        exact f6 hm2
      · -- an old arrow out of `p'`
        have hne2 : cellAtOrientation p' o' ≠ p' := cellAtOrientation_ne p' o'
        rw [if_neg hne2] at hm2
        exact hE1 p' o' hv' hvn' ⟨hm1', hm2⟩
    · rw [if_neg hep] at hm1
      by_cases hen : cellAtOrientation p' o' = p
      · rw [if_pos hen] at hm2
        rcases List.mem_cons.mp hm2 with he | hm2'
        · -- partner arrow equals the new one: p' is the target cell
          have ho' : o' = oppositeOrientation o := by
            rw [← opp_opp o', he]
          have hp' : p' = cellAtOrientation p o := by
            have := cellAt_partner hen
            rw [this, ho', opp_opp]
          rw [ho', hp'] at hm1
          exact f6 hm1
        · exact hE1 p' o' hv' hvn' ⟨hm1, hen ▸ hm2'⟩
      · rw [if_neg hen] at hm2
        exact hE1 p' o' hv' hvn' ⟨hm1, hm2⟩

/-- `_add_orientation` preserves all editing invariants whenever the cell
it inserts into currently holds at most one arrow, not the inserted one. -/
theorem addOrientation_inv (lm : LGrid) (total : Int) (s : EditState) (p : Position)
    (o : Orientation) (hp : positionIsValid lm p = true) (hinv : Inv lm total s)
    (hlen : (getQ s.directions p).length ≤ 1) (hno : o ∉ getQ s.directions p) :
    Inv lm total (addOrientation lm s p o) := by
  obtain ⟨hS, hB, hN, hQ, hE⟩ := hinv
  by_cases hnp : positionIsValid lm (cellAtOrientation p o) = true
  case neg =>
    rw [addOrientation_eq_invalid (Bool.not_eq_true _ ▸ hnp)]
    exact ⟨hS, hB, hN, hQ, hE⟩
  case pos =>
    have hpne : p ≠ cellAtOrientation p o := fun h => cellAtOrientation_ne p o h.symm
    by_cases hc : oppositeOrientation o ∈ getQ s.directions (cellAtOrientation p o)
    · rw [addOrientation_eq_erase hnp hc, if_pos (by omega)]
      -- facts about the state after the erase phase
      have hS1 : Shape lm (setQ s.directions (cellAtOrientation p o)
          ((getQ s.directions (cellAtOrientation p o)).erase (oppositeOrientation o))) :=
        Shape_setQ _ _ hS
      have hcnt := dirCount_setQ
        ((getQ s.directions (cellAtOrientation p o)).erase (oppositeOrientation o)) hS hnp
      have hlene := List.length_erase_of_mem hc
      have hmemlen : 1 ≤ (getQ s.directions (cellAtOrientation p o)).length :=
        List.length_pos.mpr (fun h => by rw [h] at hc; cases hc)
      have f7 : getQ (setQ s.directions (cellAtOrientation p o)
          ((getQ s.directions (cellAtOrientation p o)).erase (oppositeOrientation o))) p =
          getQ s.directions p :=
        getQ_setQ_ne _ (toNat_idx_ne hnp hp (cellAtOrientation_ne p o))
      apply insert_inv lm total _ _ p o hp hnp hS1 (by omega)
      · omega
      · apply QInv_setQ _ _ hQ
        refine ⟨?_, ((hQ _).2).erase _⟩
        calc ((getQ s.directions (cellAtOrientation p o)).erase
                (oppositeOrientation o)).length
            ≤ (getQ s.directions (cellAtOrientation p o)).length :=
              (List.erase_sublist _ _).length_le
          _ ≤ 2 := (hQ _).1
      · apply EdgeInv_mono _ hE
        intro x hx a ha
        rw [getQ_setQ_cases _ hS hnp hx] at ha
        by_cases hxe : x = cellAtOrientation p o
        · rw [if_pos hxe] at ha
          rw [hxe]
          exact List.erase_subset _ _ ha
        · rw [if_neg hxe] at ha
          exact ha
      · rw [getQ_setQ_self _ hS hnp]
        intro hmm
        exact (((hQ _).2).mem_erase_iff.mp hmm).1 rfl
      · rw [f7]; exact hlen
      · rw [f7]; exact hno
    · rw [addOrientation_eq_noerase hnp hc]
      split_ifs with hpos
      · exact insert_inv lm total s.directions s.remainingArrows p o hp hnp hS hpos hB
          hQ hE hc hlen hno
      · exact ⟨hS, hB, hN, hQ, hE⟩

/-- Every `_process_orientation` call at a valid position preserves all
editing invariants. -/
theorem processOrientation_inv (lm : LGrid) (total : Int) (s : EditState)
    (p : Position) (o : Orientation) (hp : positionIsValid lm p = true)
    (hinv : Inv lm total s) : Inv lm total (processOrientation lm s p o) := by
  obtain ⟨hS, hB, hN, hQ, hE⟩ := hinv
  rcases hqm : getQ s.directions p with _ | ⟨d0, _ | ⟨d1, rest⟩⟩
  · -- empty queue
    have heq : processOrientation lm s p o =
        if canAddOrientation lm p o then addOrientation lm s p o else s := by
      simp [processOrientation, hqm]
    rw [heq]
    split_ifs with ha
    · exact addOrientation_inv lm total s p o hp ⟨hS, hB, hN, hQ, hE⟩
        (by rw [hqm]; simp) (by rw [hqm]; simp)
    · exact ⟨hS, hB, hN, hQ, hE⟩
  · -- queue [d0]
    by_cases he : d0 = o
    · have heq : processOrientation lm s p o =
          { directions := setQ s.directions p [],
            remainingArrows := s.remainingArrows + 1 } := by
        simp [processOrientation, hqm, he]
      rw [heq]
      have hcnt := dirCount_setQ [] hS hp
      rw [hqm] at hcnt
      refine ⟨Shape_setQ _ _ hS, ?_, by show (0:Int) ≤ s.remainingArrows + 1; omega, ?_, ?_⟩
      · show s.remainingArrows + 1 + (dirCount (setQ s.directions p []) : Int) = total
        simp only [List.length_cons, List.length_nil] at hcnt
        omega
      · exact QInv_setQ _ _ hQ ⟨by simp, by simp⟩
      · apply EdgeInv_mono _ hE
        intro x hx a ha
        rcases getQ_setQ_or s.directions p [] x with h | h
        · rw [h] at ha; exact ha
        · rw [h] at ha; cases ha
    · have heq : processOrientation lm s p o =
          if canAddOrientation lm p o then addOrientation lm s p o else s := by
        simp [processOrientation, hqm, he]
      rw [heq]
      split_ifs with ha
      · refine addOrientation_inv lm total s p o hp ⟨hS, hB, hN, hQ, hE⟩
          (by rw [hqm]; simp) ?_
        rw [hqm]
        simp only [List.mem_singleton]
        exact fun h => he h.symm
      · exact ⟨hS, hB, hN, hQ, hE⟩
  · -- queue d0 :: d1 :: rest; the queue invariant forces rest = []
    have hlen2 := (hQ p).1
    rw [hqm] at hlen2
    simp only [List.length_cons] at hlen2
    have hrest : rest = [] := List.length_eq_zero.mp (by omega)
    subst hrest
    have hnd := (hQ p).2
    rw [hqm] at hnd
    have hd01 : d0 ≠ d1 := by
      intro h
      subst h
      simp at hnd
    by_cases he0 : d0 = o
    · have heq : processOrientation lm s p o =
          { directions := setQ s.directions p [d1],
            remainingArrows := s.remainingArrows + 1 } := by
        simp [processOrientation, hqm, he0]
      rw [heq]
      have hcnt := dirCount_setQ [d1] hS hp
      rw [hqm] at hcnt
      refine ⟨Shape_setQ _ _ hS, ?_, by show (0:Int) ≤ s.remainingArrows + 1; omega, ?_, ?_⟩
      · show s.remainingArrows + 1 + (dirCount (setQ s.directions p [d1]) : Int) = total
        simp only [List.length_cons, List.length_nil] at hcnt
        omega
      · exact QInv_setQ _ _ hQ ⟨by simp, by simp⟩
      · apply EdgeInv_mono _ hE
        intro x hx a ha
        rw [getQ_setQ_cases _ hS hp hx] at ha
        by_cases hxe : x = p
        · rw [if_pos hxe] at ha
          rw [hxe, hqm]
          rcases List.mem_singleton.mp ha with rfl
          simp
        · rw [if_neg hxe] at ha
          exact ha
    · by_cases he1 : d1 = o
      · subst he1
        have heq : processOrientation lm s p d1 =
            { directions := setQ s.directions p [d1, d0],
              remainingArrows := s.remainingArrows } := by
          simp [processOrientation, hqm, he0]
        rw [heq]
        have hcnt := dirCount_setQ [d1, d0] hS hp
        rw [hqm] at hcnt
        refine ⟨Shape_setQ _ _ hS, ?_, hN, ?_, ?_⟩
        · show s.remainingArrows + (dirCount (setQ s.directions p [d1, d0]) : Int) = total
          simp only [List.length_cons, List.length_nil] at hcnt
          omega
        · refine QInv_setQ _ _ hQ ⟨by simp, ?_⟩
          simp only [List.nodup_cons, List.mem_singleton, List.not_mem_nil,
            not_false_iff, and_true, List.nodup_nil]
          exact fun h => hd01 h.symm
        · apply EdgeInv_mono _ hE
          intro x hx a ha
          rw [getQ_setQ_cases _ hS hp hx] at ha
          by_cases hxe : x = p
          · rw [if_pos hxe] at ha
            rw [hxe, hqm]
            rcases List.mem_cons.mp ha with rfl | ha'
            · simp
            · rcases List.mem_singleton.mp ha' with rfl
              simp
          · rw [if_neg hxe] at ha
            exact ha
      · by_cases ha : canAddOrientation lm p o = true
        · have heq : processOrientation lm s p o =
              addOrientation lm
                { directions := setQ s.directions p [d0],
                  remainingArrows := s.remainingArrows + 1 } p o := by
            simp [processOrientation, hqm, he0, he1, ha]
          rw [heq]
          have hcnt := dirCount_setQ [d0] hS hp
          rw [hqm] at hcnt
          have hgq : getQ (setQ s.directions p [d0]) p = [d0] :=
            getQ_setQ_self _ hS hp
          have hinv1 : Inv lm total
              { directions := setQ s.directions p [d0],
                remainingArrows := s.remainingArrows + 1 } := by
            refine ⟨Shape_setQ _ _ hS, ?_,
              by show (0:Int) ≤ s.remainingArrows + 1; omega, ?_, ?_⟩
            · show s.remainingArrows + 1 + (dirCount (setQ s.directions p [d0]) : Int) = total
              simp only [List.length_cons, List.length_nil] at hcnt
              omega
            · exact QInv_setQ _ _ hQ ⟨by simp, by simp⟩
            · apply EdgeInv_mono _ hE
              intro x hx a ha'
              rw [getQ_setQ_cases _ hS hp hx] at ha'
              by_cases hxe : x = p
              · rw [if_pos hxe] at ha'
                rw [hxe, hqm]
                rcases List.mem_singleton.mp ha' with rfl
                simp
              · rw [if_neg hxe] at ha'
                exact ha'
          apply addOrientation_inv lm total _ p o hp hinv1
          · rw [hgq]; simp
          · rw [hgq]
            simp only [List.mem_singleton]
            exact fun h => he0 h.symm
        · have heq : processOrientation lm s p o = s := by
            simp [processOrientation, hqm, he0, he1, ha]
          rw [heq]
          exact ⟨hS, hB, hN, hQ, hE⟩

/-- All editing invariants hold after any sequence of valid-position
`_process_orientation` calls. -/
theorem Inv_applyTrace (lm : LGrid) (total : Int) (tr : List (Position × Orientation))
    (s : EditState) (hinv : Inv lm total s)
    (hval : ∀ x ∈ tr, positionIsValid lm x.1 = true) :
    Inv lm total (applyTrace lm s tr) := by
  induction tr generalizing s with
  | nil => exact hinv
  | cons x rest ih =>
    rcases x with ⟨p, o⟩
    exact ih (processOrientation lm s p o)
      (processOrientation_inv lm total s p o
        (hval _ (List.mem_cons_self _ _)) hinv)
      (fun y hy => hval y (List.mem_cons_of_mem _ hy))

/-! ### C2: the arrow budget invariant -/

/-- C2: after every sequence of `toggleEdit` calls from a fresh session,
`remaining_arrows` plus the total number of queued arrows equals the budget
`total_arrows`, and `remaining_arrows` stays between 0 and `total_arrows`. -/
theorem budget_invariant (lm : LGrid) (total : Int)
    (tr : List (Position × Orientation)) (h0 : 0 ≤ total)
    (hval : ∀ x ∈ tr, positionIsValid lm x.1 = true) :
    (applyTrace lm (freshState lm total) tr).remainingArrows +
      (dirCount (applyTrace lm (freshState lm total) tr).directions : Int) = total ∧
    0 ≤ (applyTrace lm (freshState lm total) tr).remainingArrows ∧
    (applyTrace lm (freshState lm total) tr).remainingArrows ≤ total := by
  obtain ⟨-, hB, hN, -, -⟩ := Inv_applyTrace lm total tr _ (Inv_fresh lm total h0) hval
  refine ⟨hB, hN, by omega⟩

/-- Witness for C2: placing one arrow on a 1×2 grid with budget 2. -/
theorem budget_invariant_witness :
    (0:Int) ≤ 2 ∧
    (∀ x ∈ [((((0:Int), (0:Int)) : Position), Orientation.right)],
      positionIsValid [[[Landmark.start], [Landmark.goal]]] x.1 = true) ∧
    ((applyTrace [[[Landmark.start], [Landmark.goal]]]
        (freshState [[[Landmark.start], [Landmark.goal]]] 2)
        [(((0:Int), (0:Int)), Orientation.right)]).remainingArrows +
      (dirCount (applyTrace [[[Landmark.start], [Landmark.goal]]]
        (freshState [[[Landmark.start], [Landmark.goal]]] 2)
        [(((0:Int), (0:Int)), Orientation.right)]).directions : Int) = 2 ∧
    0 ≤ (applyTrace [[[Landmark.start], [Landmark.goal]]]
        (freshState [[[Landmark.start], [Landmark.goal]]] 2)
        [(((0:Int), (0:Int)), Orientation.right)]).remainingArrows ∧
    (applyTrace [[[Landmark.start], [Landmark.goal]]]
        (freshState [[[Landmark.start], [Landmark.goal]]] 2)
        [(((0:Int), (0:Int)), Orientation.right)]).remainingArrows ≤ 2) :=
  ⟨by decide, by decide,
    budget_invariant [[[Landmark.start], [Landmark.goal]]] 2
      [(((0:Int), (0:Int)), Orientation.right)] (by decide) (by decide)⟩

/-! ### C7: queue length and distinctness -/

/-- C7: in every state reachable by `toggleEdit` calls from a fresh
session, each queue holds at most two directions, and a two-entry queue
holds two distinct directions. -/
theorem queue_invariant (lm : LGrid) (total : Int)
    (tr : List (Position × Orientation)) (h0 : 0 ≤ total)
    (hval : ∀ x ∈ tr, positionIsValid lm x.1 = true) :
    ∀ p : Position,
      (getQ (applyTrace lm (freshState lm total) tr).directions p).length ≤ 2 ∧
      (∀ a b : Orientation,
        getQ (applyTrace lm (freshState lm total) tr).directions p = [a, b] → a ≠ b) := by
  obtain ⟨-, -, -, hQ, -⟩ := Inv_applyTrace lm total tr _ (Inv_fresh lm total h0) hval
  intro p
  refine ⟨(hQ p).1, ?_⟩
  intro a b hab
  have hnd := (hQ p).2
  rw [hab] at hnd
  intro he
  subst he
  simp at hnd

/-- Witness for C7: a trace building a two-entry queue on a 2×2 grid. -/
theorem queue_invariant_witness :
    (0:Int) ≤ 3 ∧
    (∀ x ∈ [((((0:Int), (0:Int)) : Position), Orientation.right),
            ((((0:Int), (0:Int)) : Position), Orientation.down)],
      positionIsValid [[[Landmark.start], []], [[], [Landmark.goal]]] x.1 = true) ∧
    (∀ p : Position,
      (getQ (applyTrace [[[Landmark.start], []], [[], [Landmark.goal]]]
        (freshState [[[Landmark.start], []], [[], [Landmark.goal]]] 3)
        [(((0:Int), (0:Int)), Orientation.right),
         (((0:Int), (0:Int)), Orientation.down)]).directions p).length ≤ 2 ∧
      (∀ a b : Orientation,
        getQ (applyTrace [[[Landmark.start], []], [[], [Landmark.goal]]]
          (freshState [[[Landmark.start], []], [[], [Landmark.goal]]] 3)
          [(((0:Int), (0:Int)), Orientation.right),
           (((0:Int), (0:Int)), Orientation.down)]).directions p = [a, b] → a ≠ b)) :=
  ⟨by decide, by decide,
    queue_invariant [[[Landmark.start], []], [[], [Landmark.goal]]] 3
      [(((0:Int), (0:Int)), Orientation.right),
       (((0:Int), (0:Int)), Orientation.down)] (by decide) (by decide)⟩

/-! ### C3: edge exclusivity -/

/-- C3: in every state reachable by `toggleEdit` calls from a fresh
session, no two adjacent cells simultaneously hold the two opposite arrows
of their shared edge. -/
theorem edge_exclusivity (lm : LGrid) (total : Int)
    (tr : List (Position × Orientation)) (h0 : 0 ≤ total)
    (hval : ∀ x ∈ tr, positionIsValid lm x.1 = true) :
    ∀ (p : Position) (o : Orientation),
      positionIsValid lm p = true →
      positionIsValid lm (cellAtOrientation p o) = true →
      ¬(o ∈ getQ (applyTrace lm (freshState lm total) tr).directions p ∧
        oppositeOrientation o ∈
          getQ (applyTrace lm (freshState lm total) tr).directions
            (cellAtOrientation p o)) := by
  obtain ⟨-, -, -, -, hE⟩ := Inv_applyTrace lm total tr _ (Inv_fresh lm total h0) hval
  exact hE

/-- Witness for C3: after placing right at (0,0) then left at (0,1) on a
1×2 grid (the second placement retracts the first), the edge holds one
arrow. -/
theorem edge_exclusivity_witness :
    (0:Int) ≤ 5 ∧
    (∀ x ∈ [((((0:Int), (0:Int)) : Position), Orientation.right),
            ((((0:Int), (1:Int)) : Position), Orientation.left)],
      positionIsValid [[[], []]] x.1 = true) ∧
    (∀ (p : Position) (o : Orientation),
      positionIsValid [[[], []]] p = true →
      positionIsValid [[[], []]] (cellAtOrientation p o) = true →
      ¬(o ∈ getQ (applyTrace [[[], []]] (freshState [[[], []]] 5)
          [(((0:Int), (0:Int)), Orientation.right),
           (((0:Int), (1:Int)), Orientation.left)]).directions p ∧
        oppositeOrientation o ∈
          getQ (applyTrace [[[], []]] (freshState [[[], []]] 5)
            [(((0:Int), (0:Int)), Orientation.right),
             (((0:Int), (1:Int)), Orientation.left)]).directions
            (cellAtOrientation p o))) :=
  ⟨by decide, by decide,
    edge_exclusivity [[[], []]] 5
      [(((0:Int), (0:Int)), Orientation.right),
       (((0:Int), (1:Int)), Orientation.left)] (by decide) (by decide)⟩

/-! ### Trajectory lemmas for the simulator -/

theorem traj_succ (lm : LGrid) (s0 : Position × Directions) (n : Nat) :
    traj lm s0 (n + 1) = (traj lm s0 n).bind (stepSim lm) := rfl

theorem traj_succ_of {lm : LGrid} {s0 s : Position × Directions} {n : Nat}
    (h : traj lm s0 n = some s) : traj lm s0 (n + 1) = stepSim lm s := by
  rw [traj_succ, h]
  rfl

theorem traj_none_mono {lm : LGrid} {s0 : Position × Directions} {m n : Nat}
    (h : traj lm s0 m = none) (hmn : m ≤ n) : traj lm s0 n = none := by
  induction n with
  | zero =>
    have : m = 0 := Nat.le_zero.mp hmn
    rw [← this]; exact h
  | succ n ih =>
    rcases Nat.lt_or_ge m (n + 1) with hl | hg
    · rw [traj_succ, ih (Nat.lt_succ_iff.mp hl)]
      rfl
    · have : m = n + 1 := Nat.le_antisymm hmn hg
      rw [← this]; exact h

theorem traj_isSome_mono {lm : LGrid} {s0 : Position × Directions} {m n : Nat}
    (h : (traj lm s0 n).isSome = true) (hmn : m ≤ n) :
    (traj lm s0 m).isSome = true := by
  cases hm : traj lm s0 m with
  | none => rw [traj_none_mono hm hmn] at h; cases h
  | some s => rfl

theorem trajGoalB_some {lm : LGrid} {s0 s : Position × Directions} {n : Nat}
    (h : traj lm s0 n = some s) : trajGoalB lm s0 n = goalAt lm s.1 := by
  unfold trajGoalB
  rw [h]
  rfl

theorem trajGoalB_none {lm : LGrid} {s0 : Position × Directions} {n : Nat}
    (h : traj lm s0 n = none) : trajGoalB lm s0 n = false := by
  unfold trajGoalB
  rw [h]
  rfl

theorem trajGoalB_isSome {lm : LGrid} {s0 : Position × Directions} {n : Nat}
    (h : trajGoalB lm s0 n = true) : (traj lm s0 n).isSome = true := by
  cases hn : traj lm s0 n with
  | none => rw [trajGoalB_none hn] at h; cases h
  | some s => rfl

theorem stepSim_some_iff {lm : LGrid} {s s' : Position × Directions} :
    stepSim lm s = some s' ↔
      (advance lm s.1 s.2).1 = true ∧ (advance lm s.1 s.2).2 = s' := by
  unfold stepSim
  rcases h : advance lm s.1 s.2 with ⟨m, q⟩
  cases m <;> simp

theorem stepSim_none_iff {lm : LGrid} {s : Position × Directions} :
    stepSim lm s = none ↔ (advance lm s.1 s.2).1 = false := by
  unfold stepSim
  rcases h : advance lm s.1 s.2 with ⟨m, q⟩
  cases m <;> simp

/-- Deterministic trajectories that revisit a state are periodic from then
on. -/
theorem traj_period {lm : LGrid} {s0 : Position × Directions} {a b : Nat}
    (heq : traj lm s0 a = traj lm s0 b) :
    ∀ j, traj lm s0 (a + j) = traj lm s0 (b + j) := by
  intro j
  induction j with
  | zero => exact heq
  | succ j ih =>
    have e1 : a + (j + 1) = (a + j) + 1 := by omega
    have e2 : b + (j + 1) = (b + j) + 1 := by omega
    rw [e1, e2, traj_succ, traj_succ, ih]

/-- If the walk revisits a state before ever seeing a Goal cell, it never
sees one. -/
theorem cycle_no_goal {lm : LGrid} {s0 : Position × Directions} {a b : Nat}
    (hab : a < b) (heq : traj lm s0 a = traj lm s0 b)
    (hng : ∀ m, m < b → trajGoalB lm s0 m = false) :
    ∀ n, trajGoalB lm s0 n = false := by
  intro n
  induction n using Nat.strong_induction_on with
  | _ n ih =>
    rcases Nat.lt_or_ge n b with hn | hn
    · exact hng n hn
    · have hrepr : traj lm s0 n = traj lm s0 (a + (n - b)) := by
        have := (traj_period heq (n - b)).symm
        rwa [show b + (n - b) = n from by omega] at this
      have hlt : a + (n - b) < n := by omega
      calc trajGoalB lm s0 n
          = trajGoalB lm s0 (a + (n - b)) := by unfold trajGoalB; rw [hrepr]
        _ = false := ih _ hlt

/-- Raising the fuel of a successful `_get_moves` loop run does not change
its verdict. -/
theorem getMovesLoop_mono (lm : LGrid) :
    ∀ (fuel fuel' : Nat) (tort hare : Position × Directions) (moves r : Int),
    fuel ≤ fuel' →
    getMovesLoop lm fuel tort hare moves = some r →
    getMovesLoop lm fuel' tort hare moves = some r := by
  intro fuel
  induction fuel with
  | zero => intro fuel' _ _ _ _ _ h; cases h
  | succ fuel ih =>
    intro fuel' tort hare moves r hle h
    obtain ⟨f', rfl⟩ : ∃ f', fuel' = f' + 1 :=
      ⟨fuel' - 1, by omega⟩
    rcases ha1 : advance lm hare.1 hare.2 with ⟨m1, s1⟩
    rcases ha2 : advance lm s1.1 s1.2 with ⟨m2, s2⟩
    rcases ha3 : advance lm tort.1 tort.2 with ⟨m3, s3⟩
    rw [getMovesLoop] at h ⊢
    simp only [ha1, ha2, ha3] at h ⊢
    split_ifs at h ⊢ <;> try exact h
    exact ih f' s3 s2 (moves + 2) r (by omega) h

theorem bool_eq_false {b : Bool} (h : ¬b = true) : b = false := by
  cases b
  · rfl
  · exact absurd rfl h

/-- Soundness of the `_get_moves` loop: any verdict it returns matches the
straight-line walk — a nonnegative count is the index of the first Goal
visit, and `-1` certifies the walk never reaches a Goal. -/
theorem getMovesLoop_sound (lm : LGrid) (s0 : Position × Directions) :
    ∀ (fuel k : Nat) (tort hare : Position × Directions) (r : Int),
    traj lm s0 k = some tort →
    traj lm s0 (2 * k) = some hare →
    (∀ m, m < 2 * k → trajGoalB lm s0 m = false) →
    getMovesLoop lm fuel tort hare ((2 * k : Nat) : Int) = some r →
    ((∃ n : Nat, r = (n : Int) ∧ trajGoalB lm s0 n = true ∧
        ∀ m, m < n → trajGoalB lm s0 m = false) ∨
      (r = -1 ∧ ∀ n, trajGoalB lm s0 n = false)) := by
  intro fuel
  induction fuel with
  | zero => intro k tort hare r _ _ _ h; cases h
  | succ fuel ih =>
    intro k tort hare r hT hH hng h
    rcases ha1 : advance lm hare.1 hare.2 with ⟨m1, s1⟩
    rcases ha2 : advance lm s1.1 s1.2 with ⟨m2, s2⟩
    rcases ha3 : advance lm tort.1 tort.2 with ⟨m3, s3⟩
    rw [getMovesLoop] at h
    simp only [ha1, ha2, ha3] at h
    by_cases hg0 : goalAt lm hare.1 = true
    · rw [if_pos hg0] at h
      obtain rfl : ((2 * k : Nat) : Int) = r := Option.some.inj h
      left
      exact ⟨2 * k, rfl, by rw [trajGoalB_some hH]; exact hg0, hng⟩
    · rw [if_neg hg0] at h
      have hng0 : trajGoalB lm s0 (2 * k) = false := by
        rw [trajGoalB_some hH]; exact bool_eq_false hg0
      by_cases hm1 : m1 = true
      case neg =>
        have hm1' : m1 = false := bool_eq_false hm1
        subst hm1'
        simp only [Bool.not_false, if_pos] at h
        obtain rfl : (-1 : Int) = r := Option.some.inj h
        right
        refine ⟨rfl, ?_⟩
        have hnone : traj lm s0 (2 * k + 1) = none := by
          rw [traj_succ_of hH]
          exact stepSim_none_iff.mpr (by rw [ha1])
        intro n
        rcases Nat.lt_or_ge n (2 * k) with h' | h'
        · exact hng n h'
        · rcases Nat.eq_or_lt_of_le h' with rfl | h''
          · exact hng0
          · exact trajGoalB_none (traj_none_mono hnone h'')
      case pos =>
        subst hm1
        simp only [Bool.not_true, Bool.false_eq_true, if_false] at h
        have hstep1 : traj lm s0 (2 * k + 1) = some s1 := by
          rw [traj_succ_of hH]
          exact stepSim_some_iff.mpr ⟨by rw [ha1], by rw [ha1]⟩
        by_cases hg1 : goalAt lm s1.1 = true
        · rw [if_pos hg1] at h
          obtain rfl : ((2 * k : Nat) : Int) + 1 = r := Option.some.inj h
          left
          refine ⟨2 * k + 1, by push_cast; ring, ?_, ?_⟩
          · rw [trajGoalB_some hstep1]; exact hg1
          · intro m hm
            rcases Nat.lt_or_ge m (2 * k) with h' | h'
            · exact hng m h'
            · obtain rfl : m = 2 * k := by omega
              exact hng0
        · rw [if_neg hg1] at h
          have hng1 : trajGoalB lm s0 (2 * k + 1) = false := by
            rw [trajGoalB_some hstep1]; exact bool_eq_false hg1
          by_cases hm2 : m2 = true
          case neg =>
            have hm2' : m2 = false := bool_eq_false hm2
            subst hm2'
            simp only [Bool.not_false, if_pos] at h
            obtain rfl : (-1 : Int) = r := Option.some.inj h
            right
            refine ⟨rfl, ?_⟩
            have hnone : traj lm s0 (2 * k + 1 + 1) = none := by
              rw [traj_succ_of hstep1]
              exact stepSim_none_iff.mpr (by rw [ha2])
            intro n
            rcases Nat.lt_or_ge n (2 * k) with h' | h'
            · exact hng n h'
            · rcases Nat.lt_or_ge n (2 * k + 2) with h'' | h''
              · have : n = 2 * k ∨ n = 2 * k + 1 := by omega
                rcases this with rfl | rfl
                · exact hng0
                · exact hng1
              · exact trajGoalB_none (traj_none_mono hnone (by omega))
          case pos =>
            subst hm2
            simp only [Bool.not_true, Bool.false_eq_true, if_false] at h
            have hstep2 : traj lm s0 (2 * k + 2) = some s2 := by
              rw [show 2 * k + 2 = 2 * k + 1 + 1 from rfl, traj_succ_of hstep1]
              exact stepSim_some_iff.mpr ⟨by rw [ha2], by rw [ha2]⟩
            have hsome1 : (traj lm s0 (k + 1)).isSome = true :=
              traj_isSome_mono (by rw [hstep2]; rfl) (by omega)
            obtain ⟨t1, ht1⟩ := Option.isSome_iff_exists.mp hsome1
            have hstept : stepSim lm tort = some t1 := by
              rw [← traj_succ_of hT]; exact ht1
            have hs3 : s3 = t1 := by
              have := stepSim_some_iff.mp hstept
              rw [ha3] at this
              exact this.2
            have hng2 : ∀ m, m < 2 * k + 2 → trajGoalB lm s0 m = false := by
              intro m hm
              rcases Nat.lt_or_ge m (2 * k) with h' | h'
              · exact hng m h'
              · have : m = 2 * k ∨ m = 2 * k + 1 := by omega
                rcases this with rfl | rfl
                · exact hng0
                · exact hng1
            by_cases hcmp : s3 = s2
            · rw [if_pos hcmp] at h
              obtain rfl : (-1 : Int) = r := Option.some.inj h
              right
              refine ⟨rfl, ?_⟩
              apply cycle_no_goal (a := k + 1) (b := 2 * k + 2) (by omega) ?_ hng2
              rw [ht1, hstep2, ← hs3, hcmp]
            · rw [if_neg hcmp] at h
              have harith : ((2 * k : Nat) : Int) + 2 = ((2 * (k + 1) : Nat) : Int) := by
                push_cast; ring
              rw [harith] at h
              refine ih (k + 1) s3 s2 r ?_ ?_ hng2 h
              · rw [ht1, hs3]
              · rw [show 2 * (k + 1) = 2 * k + 2 from by omega]
                exact hstep2

/-- The `_get_moves` loop halts when the walk reaches a Goal. -/
theorem getMovesLoop_term_goal (lm : LGrid) (s0 : Position × Directions) (n0 : Nat)
    (hgoal : trajGoalB lm s0 n0 = true) :
    ∀ (fuel k : Nat) (tort hare : Position × Directions),
    traj lm s0 k = some tort →
    traj lm s0 (2 * k) = some hare →
    (∀ m, m < 2 * k → trajGoalB lm s0 m = false) →
    n0 < 2 * k + 2 * fuel →
    (getMovesLoop lm fuel tort hare ((2 * k : Nat) : Int)).isSome = true := by
  intro fuel
  induction fuel with
  | zero =>
    intro k tort hare _ _ hng hlt
    rw [hng n0 (by omega)] at hgoal
    cases hgoal
  | succ fuel ih =>
    intro k tort hare hT hH hng hlt
    rcases ha1 : advance lm hare.1 hare.2 with ⟨m1, s1⟩
    rcases ha2 : advance lm s1.1 s1.2 with ⟨m2, s2⟩
    rcases ha3 : advance lm tort.1 tort.2 with ⟨m3, s3⟩
    rw [getMovesLoop]
    simp only [ha1, ha2, ha3]
    split_ifs with hg0 hnm1 hg1 hnm2 hcmp
    · rfl
    · rfl
    · rfl
    · rfl
    · rfl
    · -- recursive branch
      have hm1 : m1 = true := by revert hnm1; cases m1 <;> simp
      have hm2 : m2 = true := by revert hnm2; cases m2 <;> simp
      have hstep1 : traj lm s0 (2 * k + 1) = some s1 := by
        rw [traj_succ_of hH]
        exact stepSim_some_iff.mpr ⟨by rw [ha1]; exact hm1, by rw [ha1]⟩
      have hstep2 : traj lm s0 (2 * k + 2) = some s2 := by
        rw [show 2 * k + 2 = 2 * k + 1 + 1 from rfl, traj_succ_of hstep1]
        exact stepSim_some_iff.mpr ⟨by rw [ha2]; exact hm2, by rw [ha2]⟩
      have hsome1 : (traj lm s0 (k + 1)).isSome = true :=
        traj_isSome_mono (by rw [hstep2]; rfl) (by omega)
      obtain ⟨t1, ht1⟩ := Option.isSome_iff_exists.mp hsome1
      have hstept : stepSim lm tort = some t1 := by
        rw [← traj_succ_of hT]; exact ht1
      have hs3 : s3 = t1 := by
        have := stepSim_some_iff.mp hstept
        rw [ha3] at this
        exact this.2
      have hng2 : ∀ m, m < 2 * (k + 1) → trajGoalB lm s0 m = false := by
        intro m hm
        rcases Nat.lt_or_ge m (2 * k) with h' | h'
        · exact hng m h'
        · have : m = 2 * k ∨ m = 2 * k + 1 := by omega
          rcases this with rfl | rfl
          · rw [trajGoalB_some hH]; exact bool_eq_false hg0
          · rw [trajGoalB_some hstep1]; exact bool_eq_false hg1
      have harith : ((2 * k : Nat) : Int) + 2 = ((2 * (k + 1) : Nat) : Int) := by
        push_cast; ring
      rw [harith]
      exact ih (k + 1) s3 s2 (by rw [ht1, hs3])
        (by rw [show 2 * (k + 1) = 2 * k + 2 from by omega]; exact hstep2)
        hng2 (by omega)

/-- The `_get_moves` loop halts when the walk dead-ends. -/
theorem getMovesLoop_term_dead (lm : LGrid) (s0 : Position × Directions) (N : Nat)
    (hdead : traj lm s0 N = none) :
    ∀ (fuel k : Nat) (tort hare : Position × Directions),
    traj lm s0 k = some tort →
    traj lm s0 (2 * k) = some hare →
    N ≤ 2 * k + 2 * fuel →
    (getMovesLoop lm fuel tort hare ((2 * k : Nat) : Int)).isSome = true := by
  intro fuel
  induction fuel with
  | zero =>
    intro k tort hare _ hH hle
    rw [traj_none_mono hdead (by omega)] at hH
    cases hH
  | succ fuel ih =>
    intro k tort hare hT hH hle
    rcases ha1 : advance lm hare.1 hare.2 with ⟨m1, s1⟩
    rcases ha2 : advance lm s1.1 s1.2 with ⟨m2, s2⟩
    rcases ha3 : advance lm tort.1 tort.2 with ⟨m3, s3⟩
    rw [getMovesLoop]
    simp only [ha1, ha2, ha3]
    split_ifs with hg0 hnm1 hg1 hnm2 hcmp
    · rfl
    · rfl
    · rfl
    · rfl
    · rfl
    · have hm1 : m1 = true := by revert hnm1; cases m1 <;> simp
      have hm2 : m2 = true := by revert hnm2; cases m2 <;> simp
      have hstep1 : traj lm s0 (2 * k + 1) = some s1 := by
        rw [traj_succ_of hH]
        exact stepSim_some_iff.mpr ⟨by rw [ha1]; exact hm1, by rw [ha1]⟩
      have hstep2 : traj lm s0 (2 * k + 2) = some s2 := by
        rw [show 2 * k + 2 = 2 * k + 1 + 1 from rfl, traj_succ_of hstep1]
        exact stepSim_some_iff.mpr ⟨by rw [ha2]; exact hm2, by rw [ha2]⟩
      have hsome1 : (traj lm s0 (k + 1)).isSome = true :=
        traj_isSome_mono (by rw [hstep2]; rfl) (by omega)
      obtain ⟨t1, ht1⟩ := Option.isSome_iff_exists.mp hsome1
      have hstept : stepSim lm tort = some t1 := by
        rw [← traj_succ_of hT]; exact ht1
      have hs3 : s3 = t1 := by
        have := stepSim_some_iff.mp hstept
        rw [ha3] at this
        exact this.2
      have harith : ((2 * k : Nat) : Int) + 2 = ((2 * (k + 1) : Nat) : Int) := by
        push_cast; ring
      rw [harith]
      exact ih (k + 1) s3 s2 (by rw [ht1, hs3])
        (by rw [show 2 * (k + 1) = 2 * k + 2 from by omega]; exact hstep2)
        (by omega)

/-- The `_get_moves` loop halts once the tortoise and hare can meet. -/
theorem getMovesLoop_term_cycle (lm : LGrid) (s0 : Position × Directions) (kc : Nat)
    (hcyc : traj lm s0 kc = traj lm s0 (2 * kc)) :
    ∀ (fuel k : Nat) (tort hare : Position × Directions),
    traj lm s0 k = some tort →
    traj lm s0 (2 * k) = some hare →
    k < kc →
    kc ≤ k + fuel →
    (getMovesLoop lm fuel tort hare ((2 * k : Nat) : Int)).isSome = true := by
  intro fuel
  induction fuel with
  | zero =>
    intro k tort hare _ _ hlt hle
    omega
  | succ fuel ih =>
    intro k tort hare hT hH hlt hle
    rcases ha1 : advance lm hare.1 hare.2 with ⟨m1, s1⟩
    rcases ha2 : advance lm s1.1 s1.2 with ⟨m2, s2⟩
    rcases ha3 : advance lm tort.1 tort.2 with ⟨m3, s3⟩
    rw [getMovesLoop]
    simp only [ha1, ha2, ha3]
    split_ifs with hg0 hnm1 hg1 hnm2 hcmp
    · rfl
    · rfl
    · rfl
    · rfl
    · rfl
    · have hm1 : m1 = true := by revert hnm1; cases m1 <;> simp
      have hm2 : m2 = true := by revert hnm2; cases m2 <;> simp
      have hstep1 : traj lm s0 (2 * k + 1) = some s1 := by
        rw [traj_succ_of hH]
        exact stepSim_some_iff.mpr ⟨by rw [ha1]; exact hm1, by rw [ha1]⟩
      have hstep2 : traj lm s0 (2 * k + 2) = some s2 := by
        rw [show 2 * k + 2 = 2 * k + 1 + 1 from rfl, traj_succ_of hstep1]
        exact stepSim_some_iff.mpr ⟨by rw [ha2]; exact hm2, by rw [ha2]⟩
      have hsome1 : (traj lm s0 (k + 1)).isSome = true :=
        traj_isSome_mono (by rw [hstep2]; rfl) (by omega)
      obtain ⟨t1, ht1⟩ := Option.isSome_iff_exists.mp hsome1
      have hstept : stepSim lm tort = some t1 := by
        rw [← traj_succ_of hT]; exact ht1
      have hs3 : s3 = t1 := by
        have := stepSim_some_iff.mp hstept
        rw [ha3] at this
        exact this.2
      rcases Nat.eq_or_lt_of_le (Nat.succ_le_of_lt hlt) with heq | hlt'
      · -- the meeting happens exactly now, contradicting the branch guard
        exfalso
        apply hcmp
        have h1 : traj lm s0 kc = some s3 := by rw [← heq, ht1, hs3]
        have h2 : traj lm s0 (2 * kc) = some s2 := by
          rw [show 2 * kc = 2 * k + 2 from by omega]
          exact hstep2
        have := hcyc
        rw [h1, h2] at this
        exact Option.some.inj this
      · have harith : ((2 * k : Nat) : Int) + 2 = ((2 * (k + 1) : Nat) : Int) := by
          push_cast; ring
        rw [harith]
        exact ih (k + 1) s3 s2 (by rw [ht1, hs3])
          (by rw [show 2 * (k + 1) = 2 * k + 2 from by omega]; exact hstep2)
          hlt' (by omega)

/-! ### Finiteness of the walk's state space -/

theorem forall2_getD {α β : Type} {R : α → β → Prop} {dfa : α} {dfb : β}
    (hR : R dfa dfb) :
    ∀ {l : List α} {m : List β}, List.Forall₂ R l m →
    ∀ i, R (l.getD i dfa) (m.getD i dfb) := by
  intro l m h
  induction h with
  | nil => intro i; simpa using hR
  | cons ha htail ih =>
    intro i
    cases i with
    | zero => simpa using ha
    | succ i => simpa using ih i

theorem forall2_set {α β : Type} {R : α → β → Prop} {dfa : α} :
    ∀ {l : List α} {m : List β}, List.Forall₂ R l m →
    ∀ (i : Nat) (b : β), R (l.getD i dfa) b → List.Forall₂ R l (m.set i b) := by
  intro l m h
  induction h with
  | nil => intro i b _; simpa using List.Forall₂.nil
  | cons ha htail ih =>
    intro i b hb
    cases i with
    | zero => exact List.Forall₂.cons (by simpa using hb) htail
    | succ i => exact List.Forall₂.cons ha (ih i b (by simpa using hb))

theorem QRel_refl (q : Queue) : QRel q q := Or.inl rfl

theorem swap2_swap2 (q : Queue) : swap2 (swap2 q) = q := by
  rcases q with _ | ⟨a, _ | ⟨b, _ | ⟨c, t⟩⟩⟩ <;> rfl

theorem QRel_swap2 {a b : Queue} (h : QRel a b) : QRel a (swap2 b) := by
  rcases h with rfl | rfl
  · exact Or.inr rfl
  · exact Or.inl (swap2_swap2 a)

theorem DirRel_refl (d : Directions) : DirRel d d :=
  List.forall₂_same.mpr fun r _ => List.forall₂_same.mpr fun q _ => QRel_refl q

theorem DirRel_getQ {d0 d : Directions} (h : DirRel d0 d) (p : Position) :
    QRel (getQ d0 p) (getQ d p) := by
  unfold getQ
  exact forall2_getD (QRel_refl []) (forall2_getD List.Forall₂.nil h p.1.toNat) p.2.toNat

theorem DirRel_setQ {d0 d : Directions} (h : DirRel d0 d) (p : Position) (q : Queue)
    (hq : QRel (getQ d0 p) q) : DirRel d0 (setQ d p q) := by
  unfold setQ
  apply forall2_set h
  apply forall2_set (forall2_getD List.Forall₂.nil h p.1.toNat)
  exact hq

theorem DirRel_step {d0 d : Directions} (h : DirRel d0 d) (p : Position) :
    DirRel d0 (setQ d p (swap2 (getQ d p))) :=
  DirRel_setQ h p _ (QRel_swap2 (DirRel_getQ h p))

theorem mem_queueChoices_of {q b : Queue} (h : QRel q b) : b ∈ queueChoices q := by
  rcases h with rfl | rfl
  · exact Finset.mem_insert_self _ _
  · exact Finset.mem_insert_of_mem (Finset.mem_singleton_self _)

theorem mem_rowChoices_of : ∀ {r row : List Queue},
    List.Forall₂ QRel r row → row ∈ rowChoices r := by
  intro r
  induction r with
  | nil =>
    intro row h
    rw [List.forall₂_nil_left_iff.mp h]
    exact Finset.mem_singleton_self _
  | cons q qs ih =>
    intro row h
    obtain ⟨b, u', hb, hu, rfl⟩ := List.forall₂_cons_left_iff.mp h
    exact Finset.mem_image₂.mpr ⟨b, mem_queueChoices_of hb, u', ih hu, rfl⟩

theorem mem_dirChoices_of : ∀ {d0 d : Directions}, DirRel d0 d → d ∈ dirChoices d0 := by
  intro d0
  induction d0 with
  | nil =>
    intro d h
    rw [List.forall₂_nil_left_iff.mp h]
    exact Finset.mem_singleton_self _
  | cons r rs ih =>
    intro d h
    obtain ⟨b, u', hb, hu, rfl⟩ := List.forall₂_cons_left_iff.mp h
    exact Finset.mem_image₂.mpr ⟨b, mem_rowChoices_of hb, u', ih hu, rfl⟩

theorem mem_validPositions {lm : LGrid} {p : Position}
    (h : positionIsValid lm p = true) : p ∈ validPositions lm := by
  obtain ⟨h1, h2, h3, h4⟩ := of_decide_eq_true h
  refine Finset.mem_image.mpr ⟨(p.1.toNat, p.2.toNat), ?_, ?_⟩
  · exact Finset.mem_product.mpr ⟨Finset.mem_range.mpr (by omega),
      Finset.mem_range.mpr (by omega)⟩
  · rcases p with ⟨a, b⟩
    simp only [Prod.mk.injEq]
    exact ⟨Int.toNat_of_nonneg h1, Int.toNat_of_nonneg h3⟩

/-- A successful `_advance` lands on a valid position and either leaves the
route table alone or swaps the departed cell's two-entry queue. -/
theorem advance_spec {lm : LGrid} {p : Position} {d1 : Directions}
    {q : Position × Directions} (h : advance lm p d1 = (true, q)) :
    positionIsValid lm q.1 = true ∧
      (q.2 = d1 ∨ q.2 = setQ d1 p (swap2 (getQ d1 p))) := by
  unfold advance at h
  rcases hq : getQ d1 p with _ | ⟨o, rest⟩
  · rw [hq] at h
    simp only [] at h
    injection h with h1 h2
    cases h1
  · rw [hq] at h
    simp only [] at h
    by_cases hv : positionIsValid lm (cellAtOrientation p o) = true
    · rw [if_pos hv] at h
      by_cases hl : (o :: rest).length = 2
      · rw [if_pos hl] at h
        injection h with h1 h2
        rw [← h2]
        exact ⟨hv, Or.inr rfl⟩
      · rw [if_neg hl] at h
        injection h with h1 h2
        rw [← h2]
        exact ⟨hv, Or.inl rfl⟩
    · rw [if_neg hv] at h
      injection h with h1 h2
      cases h1

/-- Along the walk, positions stay in bounds and the route table stays a
per-cell swap of the initial one. -/
theorem traj_good (lm : LGrid) (st : Position) (d : Directions)
    (hst : positionIsValid lm st = true) :
    ∀ (n : Nat) (s : Position × Directions), traj lm (st, d) n = some s →
    positionIsValid lm s.1 = true ∧ DirRel d s.2 := by
  intro n
  induction n with
  | zero =>
    intro s hs
    obtain rfl : (st, d) = s := Option.some.inj hs
    exact ⟨hst, DirRel_refl d⟩
  | succ n ih =>
    intro s hs
    rw [traj_succ] at hs
    cases hn : traj lm (st, d) n with
    | none => rw [hn] at hs; cases hs
    | some s' =>
      rw [hn] at hs
      have hstep : stepSim lm s' = some s := hs
      obtain ⟨hm, hq⟩ := stepSim_some_iff.mp hstep
      rcases ha : advance lm s'.1 s'.2 with ⟨m, q⟩
      rw [ha] at hm hq
      have hadv : advance lm s'.1 s'.2 = (true, s) := by
        rw [ha]
        simp only at hm hq
        rw [hm, hq]
      obtain ⟨hv, hd⟩ := advance_spec hadv
      obtain ⟨hv', hrel'⟩ := ih s' hn
      refine ⟨hv, ?_⟩
      rcases hd with he | he
      · rw [he]; exact hrel'
      · rw [he]; exact DirRel_step hrel' s'.1

/-- By pigeonhole on the finite state space, a total walk revisits some
state. -/
theorem traj_repeat (lm : LGrid) (st : Position) (d : Directions)
    (hst : positionIsValid lm st = true)
    (htot : ∀ n, (traj lm (st, d) n).isSome = true) :
    ∃ i j, i < j ∧ traj lm (st, d) i = traj lm (st, d) j := by
  classical
  have hmaps : ∀ n ∈ Finset.range ((stateChoices lm d).card + 1),
      (traj lm (st, d) n).getD (st, d) ∈ stateChoices lm d := by
    intro n _
    obtain ⟨s, hs⟩ := Option.isSome_iff_exists.mp (htot n)
    rw [hs]
    obtain ⟨hv, hrel⟩ := traj_good lm st d hst n s hs
    exact Finset.mem_product.mpr ⟨mem_validPositions hv, mem_dirChoices_of hrel⟩
  have hcard : (stateChoices lm d).card <
      (Finset.range ((stateChoices lm d).card + 1)).card := by simp
  obtain ⟨x, hx, y, hy, hxy, hfe⟩ :=
    Finset.exists_ne_map_eq_of_card_lt_of_maps_to hcard hmaps
  have hxeq : traj lm (st, d) x = traj lm (st, d) y := by
    obtain ⟨sx, hsx⟩ := Option.isSome_iff_exists.mp (htot x)
    obtain ⟨sy, hsy⟩ := Option.isSome_iff_exists.mp (htot y)
    rw [hsx, hsy] at hfe ⊢
    simpa using hfe
  rcases Nat.lt_or_ge x y with h | h
  · exact ⟨x, y, h, hxeq⟩
  · exact ⟨y, x, lt_of_le_of_ne h (Ne.symm hxy), hxeq.symm⟩

/-- A total walk admits an index `kc ≥ 1` at which the `2kc`-th state
equals the `kc`-th — exactly what the tortoise-hare comparison detects. -/
theorem exists_cycle (lm : LGrid) (st : Position) (d : Directions)
    (hst : positionIsValid lm st = true)
    (htot : ∀ n, (traj lm (st, d) n).isSome = true) :
    ∃ kc, 1 ≤ kc ∧ traj lm (st, d) kc = traj lm (st, d) (2 * kc) := by
  obtain ⟨i, j, hij, heq⟩ := traj_repeat lm st d hst htot
  have hMstep : ∀ M, i ≤ M →
      traj lm (st, d) (M + (j - i)) = traj lm (st, d) M := by
    intro M hM
    have := traj_period heq (M - i)
    rw [show i + (M - i) = M from by omega,
      show j + (M - i) = M + (j - i) from by omega] at this
    exact this.symm
  have hiter : ∀ (t M : Nat), i ≤ M →
      traj lm (st, d) (M + (j - i) * t) = traj lm (st, d) M := by
    intro t
    induction t with
    | zero => intro M _; simp
    | succ t ih =>
      intro M hM
      rw [Nat.mul_succ, ← Nat.add_assoc]
      calc traj lm (st, d) (M + (j - i) * t + (j - i))
          = traj lm (st, d) (M + (j - i) * t) := hMstep _ (by omega)
        _ = traj lm (st, d) M := ih M hM
  have hle : i + 1 ≤ (j - i) * (i + 1) :=
    Nat.le_mul_of_pos_left (i + 1) (by omega)
  refine ⟨(j - i) * (i + 1), by omega, ?_⟩
  have := hiter (i + 1) ((j - i) * (i + 1)) (by omega)
  rw [two_mul]
  exact this.symm

theorem getMovesF_eq_loop (lm : LGrid) (d : Directions) (st : Position) (fuel : Nat) :
    getMovesF lm d st fuel = getMovesLoop lm fuel (st, d) (st, d) ((2 * 0 : Nat) : Int) :=
  rfl

theorem getMovesF_sound (lm : LGrid) (d : Directions) (st : Position) (fuel : Nat)
    (r : Int) (h : getMovesF lm d st fuel = some r) :
    ((∃ n : Nat, r = (n : Int) ∧ trajGoalB lm (st, d) n = true ∧
        ∀ m, m < n → trajGoalB lm (st, d) m = false) ∨
      (r = -1 ∧ ∀ n, trajGoalB lm (st, d) n = false)) :=
  getMovesLoop_sound lm (st, d) fuel 0 (st, d) (st, d) r rfl rfl
    (fun m hm => absurd hm (by omega)) (by rw [← getMovesF_eq_loop]; exact h)

/-- `_get_moves` always has a sufficient iteration budget: the loop
terminates on every input. -/
theorem getMovesF_total (lm : LGrid) (d : Directions) (st : Position)
    (hst : positionIsValid lm st = true) :
    ∃ (N : Nat) (r : Int), getMovesF lm d st N = some r := by
  classical
  by_cases hg : ∃ n, trajGoalB lm (st, d) n = true
  · obtain ⟨n0, hn0⟩ := hg
    have hsome := getMovesLoop_term_goal lm (st, d) n0 hn0 (n0 + 1) 0 (st, d) (st, d)
      rfl rfl (fun m hm => absurd hm (by omega)) (by omega)
    obtain ⟨r, hr⟩ := Option.isSome_iff_exists.mp hsome
    exact ⟨n0 + 1, r, by rw [getMovesF_eq_loop]; exact hr⟩
  · by_cases hdead : ∃ M, traj lm (st, d) M = none
    · obtain ⟨M, hM⟩ := hdead
      have hsome := getMovesLoop_term_dead lm (st, d) M hM M 0 (st, d) (st, d)
        rfl rfl (by omega)
      obtain ⟨r, hr⟩ := Option.isSome_iff_exists.mp hsome
      exact ⟨M, r, by rw [getMovesF_eq_loop]; exact hr⟩
    · push_neg at hdead
      have htot : ∀ n, (traj lm (st, d) n).isSome = true :=
        fun n => Option.ne_none_iff_isSome.mp (hdead n)
      obtain ⟨kc, hkc, hcyc⟩ := exists_cycle lm st d hst htot
      have hsome := getMovesLoop_term_cycle lm (st, d) kc hcyc kc 0 (st, d) (st, d)
        rfl rfl (by omega) (by omega)
      obtain ⟨r, hr⟩ := Option.isSome_iff_exists.mp hsome
      exact ⟨kc, r, by rw [getMovesF_eq_loop]; exact hr⟩

/-- C1: for every grid and routing configuration whose start position is in
bounds, `_get_moves` terminates (some finite iteration budget suffices, and
any larger one gives the same verdict); it returns `n ≥ 0` exactly when the
deterministic walk — following index-0 entries and swapping two-entry
queues on departure — first lands on a Goal cell after exactly `n` steps,
and it returns the sentinel `-1` exactly when that walk never reaches a
Goal cell. -/
theorem getMoves_correct (lm : LGrid) (d : Directions) (st : Position)
    (hst : positionIsValid lm st = true) :
    ∃ N : Nat, ∀ fuel : Nat, N ≤ fuel →
      (getMovesF lm d st fuel).isSome = true ∧
      (∀ n : Nat, getMovesF lm d st fuel = some (n : Int) ↔
        (trajGoalB lm (st, d) n = true ∧ ∀ m, m < n → trajGoalB lm (st, d) m = false)) ∧
      (getMovesF lm d st fuel = some (-1) ↔ ∀ n, trajGoalB lm (st, d) n = false) := by
  obtain ⟨N, r, hNr⟩ := getMovesF_total lm d st hst
  refine ⟨N, ?_⟩
  intro fuel hfuel
  have hF : getMovesF lm d st fuel = some r := by
    rw [getMovesF_eq_loop] at hNr ⊢
    exact getMovesLoop_mono lm N fuel _ _ _ r hfuel hNr
  have hsound := getMovesF_sound lm d st fuel r hF
  refine ⟨by rw [hF]; rfl, ?_, ?_⟩
  · intro n
    constructor
    · intro hn
      rw [hF] at hn
      have hrn : r = (n : Int) := Option.some.inj hn
      rcases hsound with ⟨n1, hrn1, hg1, hmin1⟩ | ⟨hr1, hall⟩
      · have hcast : (n1 : Int) = (n : Int) := by rw [← hrn1, hrn]
        have hn1n : n1 = n := by exact_mod_cast hcast
        subst hn1n
        exact ⟨hg1, hmin1⟩
      · exfalso
        rw [hr1] at hrn
        omega
    · rintro ⟨hgn, hminn⟩
      rcases hsound with ⟨n1, hrn1, hg1, hmin1⟩ | ⟨hr1, hall⟩
      · have hn1n : n1 = n := by
          rcases Nat.lt_trichotomy n1 n with h | h | h
          · rw [hminn n1 h] at hg1; cases hg1
          · exact h
          · rw [hmin1 n h] at hgn; cases hgn
        rw [hF, hrn1, hn1n]
      · rw [hall n] at hgn; cases hgn
  · constructor
    · intro hm
      rw [hF] at hm
      have hrm : r = -1 := Option.some.inj hm
      rcases hsound with ⟨n1, hrn1, hg1, hmin1⟩ | ⟨hr1, hall⟩
      · exfalso
        rw [hrn1] at hrm
        omega
      · exact hall
    · intro hall
      rcases hsound with ⟨n1, hrn1, hg1, hmin1⟩ | ⟨hr1, hall1⟩
      · rw [hall n1] at hg1; cases hg1
      · rw [hF, hr1]

/-- Witness for C1: a 1×2 grid with one arrow from Start to Goal. -/
theorem getMoves_correct_witness :
    positionIsValid [[[Landmark.start], [Landmark.goal]]] (0, 0) = true ∧
    (∃ N : Nat, ∀ fuel : Nat, N ≤ fuel →
      (getMovesF [[[Landmark.start], [Landmark.goal]]] [[[Orientation.right], []]]
        (0, 0) fuel).isSome = true ∧
      (∀ n : Nat, getMovesF [[[Landmark.start], [Landmark.goal]]]
          [[[Orientation.right], []]] (0, 0) fuel = some (n : Int) ↔
        (trajGoalB [[[Landmark.start], [Landmark.goal]]]
            ((0, 0), [[[Orientation.right], []]]) n = true ∧
          ∀ m, m < n → trajGoalB [[[Landmark.start], [Landmark.goal]]]
            ((0, 0), [[[Orientation.right], []]]) m = false)) ∧
      (getMovesF [[[Landmark.start], [Landmark.goal]]] [[[Orientation.right], []]]
          (0, 0) fuel = some (-1) ↔
        ∀ n, trajGoalB [[[Landmark.start], [Landmark.goal]]]
          ((0, 0), [[[Orientation.right], []]]) n = false)) :=
  ⟨by decide,
    getMoves_correct [[[Landmark.start], [Landmark.goal]]] [[[Orientation.right], []]]
      (0, 0) (by decide)⟩

end Arrows
